import Mathlib

/-!
Verification development for the Steamer descriptor engine (`src/main.py`).

The Python source manipulates semi-structured text with three regular
expressions (`RE_ADDAPPID_TOKEN`, `RE_SETMANIFEST`, `RE_ADDAPPID_SINGLE`),
rewrites manifest markers in place (`update_lua_manifest`), copies files with
backup rotation (`copy_with_backup`), and keeps a SQLite append log
(`gamesAdded`).  Everything below is a shallow embedding of those functions:
regular-expression matching is modelled by deterministic character-list
matchers that follow the exact backtracking behaviour of the patterns in the
source (all the patterns involved are deterministic up to the documented
greedy runs), file systems are association lists keyed by (directory, name),
and the SQLite table is a list of rows in insertion order.
-/

namespace Steamer

/-- Python's `\s` (ASCII range, which is all that the descriptor files use). -/
def isWS (c : Char) : Bool :=
  c.toNat = 32 || c.toNat = 9 || c.toNat = 10 || c.toNat = 13 ||
  c.toNat = 11 || c.toNat = 12

/-- Python's `\d` (ASCII digits). -/
def isDig (c : Char) : Bool := 48 ≤ c.toNat && c.toNat ≤ 57

/-- ASCII lower-casing, used to model the `re.IGNORECASE` flag. -/
def lowerC (c : Char) : Char :=
  if 65 ≤ c.toNat ∧ c.toNat ≤ 90 then Char.ofNat (c.toNat + 32) else c

@[simp] theorem isWS_quote : isWS '"' = false := by decide
@[simp] theorem isDig_quote : isDig '"' = false := by decide
@[simp] theorem isDig_rparen : isDig ')' = false := by decide
@[simp] theorem isWS_rparen : isWS ')' = false := by decide
@[simp] theorem isWS_newline : isWS '\n' = true := by decide

/-- Match a literal pattern (already lower-cased) case-insensitively against
the front of the text, returning the rest of the text. -/
def stripCI : List Char → List Char → Option (List Char)
  | [], s => some s
  | _ :: _, [] => none
  | p :: ps, c :: cs => if lowerC c = p then stripCI ps cs else none

/-- Match a literal pattern case-sensitively (used for interpolated depot
digits and `re.escape`d manifest ids). -/
def stripCS : List Char → List Char → Option (List Char)
  | [], s => some s
  | _ :: _, [] => none
  | p :: ps, c :: cs => if c = p then stripCS ps cs else none

/-- Consume one expected character. -/
def chomp (c : Char) : List Char → Option (List Char)
  | [] => none
  | x :: xs => if x = c then some xs else none

/-- `\s*`. -/
def dropWS (s : List Char) : List Char := s.dropWhile isWS

/-- A non-empty maximal run of characters satisfying `p`, together with the
rest (the common shape of `(\d+)` and `([^"]+)` captures). -/
def takeRun1 (p : Char → Bool) (s : List Char) : Option (List Char × List Char) :=
  match s.takeWhile p with
  | [] => none
  | ds => some (ds, s.dropWhile p)

/-- `(\d+)`. -/
def takeDigs1 (s : List Char) : Option (List Char × List Char) := takeRun1 isDig s

theorem stripCI_length {p s r : List Char} (h : stripCI p s = some r) :
    r.length + p.length = s.length := by
  induction p generalizing s with
  | nil => simp [stripCI] at h; simp [h]
  | cons q ps ih =>
    cases s with
    | nil => simp [stripCI] at h
    | cons c cs =>
      simp only [stripCI] at h
      split at h
      · have := ih h; simp [List.length_cons]; omega
      · exact absurd h (by simp)

theorem stripCS_length {p s r : List Char} (h : stripCS p s = some r) :
    r.length + p.length = s.length := by
  induction p generalizing s with
  | nil => simp [stripCS] at h; simp [h]
  | cons q ps ih =>
    cases s with
    | nil => simp [stripCS] at h
    | cons c cs =>
      simp only [stripCS] at h
      split at h
      · have := ih h; simp [List.length_cons]; omega
      · exact absurd h (by simp)

theorem chomp_length {c : Char} {s r : List Char} (h : chomp c s = some r) :
    r.length + 1 = s.length := by
  cases s with
  | nil => simp [chomp] at h
  | cons x xs =>
    simp only [chomp] at h
    split at h
    · cases h; simp
    · exact absurd h (by simp)

theorem dropWhile_length_le (p : Char → Bool) (l : List Char) :
    (l.dropWhile p).length ≤ l.length := by
  induction l with
  | nil => simp
  | cons c cs ih =>
    rw [List.dropWhile_cons]
    split
    · exact Nat.le_trans ih (by simp)
    · simp

theorem dropWS_length (s : List Char) : (dropWS s).length ≤ s.length :=
  dropWhile_length_le isWS s

theorem takeRun1_length {p : Char → Bool} {s : List Char} {ds r : List Char}
    (h : takeRun1 p s = some (ds, r)) : r.length < s.length ∧ ds ≠ [] := by
  unfold takeRun1 at h
  cases s with
  | nil => simp [List.takeWhile] at h
  | cons c cs =>
    rw [List.takeWhile_cons] at h
    by_cases hc : p c
    · simp only [hc, if_pos] at h
      cases h
      rw [List.dropWhile_cons, if_pos hc]
      exact ⟨Nat.lt_succ_of_le (dropWhile_length_le p cs), by simp⟩
    · simp [hc] at h

theorem takeDigs1_length {s : List Char} {ds r : List Char}
    (h : takeDigs1 s = some (ds, r)) : r.length < s.length ∧ ds ≠ [] :=
  takeRun1_length h

/-! ### takeWhile / dropWhile over concatenations with a blocking boundary -/

theorem takeWhile_append_bdry {p : Char → Bool} {c : Char} (u w : List Char)
    (hc : p c = false) : (u ++ c :: w).takeWhile p = u.takeWhile p := by
  induction u with
  | nil => simp [List.takeWhile_cons, hc]
  | cons x xs ih =>
    rw [List.cons_append, List.takeWhile_cons, List.takeWhile_cons]
    split <;> simp [ih]

theorem dropWhile_append_bdry {p : Char → Bool} {c : Char} (u w : List Char)
    (hc : p c = false) : (u ++ c :: w).dropWhile p = u.dropWhile p ++ c :: w := by
  induction u with
  | nil => simp [List.dropWhile_cons, hc]
  | cons x xs ih =>
    rw [List.cons_append, List.dropWhile_cons, List.dropWhile_cons]
    split <;> simp [ih]

theorem takeWhile_all {p : Char → Bool} {u : List Char}
    (h : ∀ c ∈ u, p c = true) : u.takeWhile p = u := by
  induction u with
  | nil => rfl
  | cons x xs ih =>
    rw [List.takeWhile_cons, if_pos (h x (by simp))]
    simp [ih fun c hc => h c (by simp [hc])]

theorem dropWhile_all {p : Char → Bool} {u : List Char}
    (h : ∀ c ∈ u, p c = true) : u.dropWhile p = [] := by
  induction u with
  | nil => rfl
  | cons x xs ih =>
    rw [List.dropWhile_cons, if_pos (h x (by simp))]
    exact ih fun c hc => h c (by simp [hc])

/-- Splitting a maximal run: the run, then a blocking character. -/
theorem takeWhile_run {p : Char → Bool} {u : List Char} {c : Char} (w : List Char)
    (hu : ∀ x ∈ u, p x = true) (hc : p c = false) :
    (u ++ c :: w).takeWhile p = u ∧ (u ++ c :: w).dropWhile p = c :: w := by
  rw [takeWhile_append_bdry u w hc, dropWhile_append_bdry u w hc,
    takeWhile_all hu, dropWhile_all hu]
  simp

/-! ### Decimal rendering (Python `str(n)` for a non-negative int) and `int(s)` -/

/-- Value of a digit character. -/
def digVal (c : Char) : Nat := c.toNat - 48

/-- Python `int(...)` on a string of ASCII digits (also the semantics of a
`(\d+)` capture being converted with `int`). -/
def digitsVal (ds : List Char) : Nat := ds.foldl (fun a c => a * 10 + digVal c) 0

theorem digitsVal_append_one (xs : List Char) (c : Char) :
    digitsVal (xs ++ [c]) = digitsVal xs * 10 + digVal c := by
  unfold digitsVal
  rw [List.foldl_append]
  rfl

def natToDecAux : Nat → Nat → List Char
  | 0, _ => []
  | fuel + 1, n => if n < 10 then [Nat.digitChar n] else
      natToDecAux fuel (n / 10) ++ [Nat.digitChar (n % 10)]

/-- Decimal rendering of a natural number, as Python's f-string `{n}` does. -/
def natToDec (n : Nat) : List Char := natToDecAux (n + 1) n

theorem natToDecAux_congr : ∀ {f₁ f₂ n : Nat}, n < f₁ → n < f₂ →
    natToDecAux f₁ n = natToDecAux f₂ n
  | f₁ + 1, f₂ + 1, n, h₁, h₂ => by
    unfold natToDecAux
    split
    · rfl
    · next h10 =>
      have hd : n / 10 < n := Nat.div_lt_self (by omega) (by omega)
      have heq : natToDecAux f₁ (n / 10) = natToDecAux f₂ (n / 10) :=
        natToDecAux_congr (by omega) (by omega)
      rw [heq]

theorem natToDec_eq (n : Nat) : natToDec n =
    if n < 10 then [Nat.digitChar n] else natToDec (n / 10) ++ [Nat.digitChar (n % 10)] := by
  unfold natToDec
  conv_lhs => rw [natToDecAux]
  split
  · rfl
  · next h10 =>
    have hd : n / 10 < n := Nat.div_lt_self (by omega) (by omega)
    have heq : natToDecAux n (n / 10) = natToDecAux (n / 10 + 1) (n / 10) :=
      natToDecAux_congr (by omega) (Nat.lt_succ_self _)
    rw [heq]

theorem digitChar_isDig {d : Nat} (h : d < 10) : isDig (Nat.digitChar d) = true := by
  interval_cases d <;> decide

theorem digitChar_digVal {d : Nat} (h : d < 10) : digVal (Nat.digitChar d) = d := by
  interval_cases d <;> decide

theorem natToDec_all_digits (n : Nat) : ∀ c ∈ natToDec n, isDig c = true := by
  induction n using Nat.strong_induction_on with
  | _ n ih =>
    rw [natToDec_eq]
    split
    · next h => simpa using digitChar_isDig h
    · next h =>
      intro c hc
      rw [List.mem_append] at hc
      rcases hc with hc | hc
      · exact ih (n / 10) (Nat.div_lt_self (by omega) (by omega)) c hc
      · simp at hc
        subst hc
        exact digitChar_isDig (Nat.mod_lt _ (by omega))

theorem natToDec_ne_nil (n : Nat) : natToDec n ≠ [] := by
  rw [natToDec_eq]
  split <;> simp

theorem digitsVal_natToDec (n : Nat) : digitsVal (natToDec n) = n := by
  induction n using Nat.strong_induction_on with
  | _ n ih =>
    rw [natToDec_eq]
    split
    · next h =>
      show digitsVal [Nat.digitChar n] = n
      unfold digitsVal
      simp [digitChar_digVal h]
    · next h =>
      rw [digitsVal_append_one, ih (n / 10) (Nat.div_lt_self (by omega) (by omega)),
        digitChar_digVal (Nat.mod_lt _ (by omega))]
      omega

theorem natToDec_inj {m n : Nat} (h : natToDec m = natToDec n) : m = n := by
  have := digitsVal_natToDec m
  rw [h, digitsVal_natToDec] at this
  omega

/-! ### The three parsing regular expressions

`RE_ADDAPPID_TOKEN = addappid\(\s*(\d+)\s*,\s*(?:0|1)\s*,\s*"([^"]+)"\s*\)`
`RE_SETMANIFEST    = setManifestid\(\s*(\d+)\s*,\s*"(\d+)"(?:\s*,\s*[^)]*)?\s*\)`
`RE_ADDAPPID_SINGLE = addappid\(\s*(\d+)\s*\)(?!\s*,)`
all compiled with `re.IGNORECASE`.  Each is deterministic: every greedy
subpattern (`\s*`, `\d+`, `[^"]+`, `[^)]*`) is followed by a character that
the run cannot contain, so backtracking never changes the outcome.  The
matchers below try the pattern at the head of the character list and return
the captures together with the suffix after the match. -/

/-- `[^"]` as a Bool predicate. -/
def notQ (c : Char) : Bool := c != '"'

/-- `[^)]` as a Bool predicate. -/
def notP (c : Char) : Bool := c != ')'

@[simp] theorem notQ_eq {c : Char} : notQ c = true ↔ c ≠ '"' := by
  simp [notQ]

@[simp] theorem notQ_quote : notQ '"' = false := by decide

@[simp] theorem notP_rparen : notP ')' = false := by decide

/-- `(?:0|1)`. -/
def flagChar : List Char → Option (List Char)
  | [] => none
  | c :: s => if c = '0' || c = '1' then some s else none

/-- `RE_ADDAPPID_TOKEN` tried at the head of `s`; on success returns the
`(int(depot), token)` capture pair and the text after the match. -/
def matchTokAt (s : List Char) : Option ((Nat × String) × List Char) := do
  let s1 ← stripCI ("addappid(".toList) s
  let (d, s2) ← takeDigs1 (dropWS s1)
  let s3 ← chomp ',' (dropWS s2)
  let s4 ← flagChar (dropWS s3)
  let s5 ← chomp ',' (dropWS s4)
  let s6 ← chomp '"' (dropWS s5)
  let (t, s6d) ← takeRun1 notQ s6
  let s7 ← chomp '"' s6d
  let s8 ← chomp ')' (dropWS s7)
  return ((digitsVal d, String.mk t), s8)

/-- The tail `(?:\s*,\s*[^)]*)?\s*\)` of `RE_SETMANIFEST`, tried after the
closing quote of the manifest id. -/
def manClose (s : List Char) : Option (List Char) :=
  match dropWS s with
  | [] => none
  | c :: r =>
    if c = ')' then some r
    else if c = ',' then
      match r.dropWhile notP with
      | [] => none
      | c2 :: r2 => if c2 = ')' then some r2 else none
    else none

/-- `RE_SETMANIFEST` tried at the head of `s`. -/
def matchManAt (s : List Char) : Option ((Nat × String) × List Char) := do
  let s1 ← stripCI ("setmanifestid(".toList) s
  let (d, s2) ← takeDigs1 (dropWS s1)
  let s3 ← chomp ',' (dropWS s2)
  let s4 ← chomp '"' (dropWS s3)
  let (m, s5) ← takeDigs1 s4
  let s6 ← chomp '"' s5
  let r ← manClose s6
  return ((digitsVal d, String.mk m), r)

/-- `RE_ADDAPPID_SINGLE` tried at the head of `s` (including the negative
lookahead `(?!\s*,)`). -/
def matchSingleAt (s : List Char) : Option Nat := do
  let s1 ← stripCI ("addappid(".toList) s
  let (d, s2) ← takeDigs1 (dropWS s1)
  let s3 ← chomp ')' (dropWS s2)
  match dropWS s3 with
  | [] => some (digitsVal d)
  | c :: _ => if c = ',' then none else some (digitsVal d)

theorem flagChar_length {s r : List Char} (h : flagChar s = some r) :
    r.length + 1 = s.length := by
  cases s with
  | nil => simp [flagChar] at h
  | cons c cs =>
    simp only [flagChar] at h
    split at h
    · cases h; simp
    · exact absurd h (by simp)

theorem manClose_length {s r : List Char} (h : manClose s = some r) :
    r.length ≤ s.length := by
  unfold manClose at h
  have hds : (dropWS s).length ≤ s.length := dropWS_length s
  split at h
  · exact absurd h (by simp)
  · next c r' heq =>
    rw [heq] at hds
    split at h
    · cases h
      simp at hds
      omega
    · split at h
      · split at h
        · exact absurd h (by simp)
        · next c2 r2 heq2 =>
          split at h
          · cases h
            have hxs : (r'.dropWhile notP).length ≤ r'.length :=
              dropWhile_length_le _ _
            rw [heq2] at hxs
            simp at hds hxs
            omega
          · exact absurd h (by simp)
      · exact absurd h (by simp)

theorem matchTokAt_length {s : List Char} {p : Nat × String} {r : List Char}
    (h : matchTokAt s = some (p, r)) : r.length < s.length := by
  unfold matchTokAt at h
  simp only [Option.bind_eq_bind, Option.bind_eq_some] at h
  obtain ⟨s1, h1, h⟩ := h
  obtain ⟨⟨d, s2⟩, h2, h⟩ := h
  obtain ⟨s3, h3, h⟩ := h
  obtain ⟨s4, h4, h⟩ := h
  obtain ⟨s5, h5, h⟩ := h
  obtain ⟨s6, h6, h⟩ := h
  obtain ⟨⟨t, s6d⟩, h6d, h⟩ := h
  obtain ⟨s7, h7, h⟩ := h
  obtain ⟨s8, h8, h⟩ := h
  simp only [Option.some_inj] at h
  cases h
  dsimp only at *
  have l1 := stripCI_length h1
  have l2 := (takeDigs1_length h2).1
  have l3 := chomp_length h3
  have l4 := flagChar_length h4
  have l5 := chomp_length h5
  have l6 := chomp_length h6
  have l6d := (takeRun1_length h6d).1
  have l7 := chomp_length h7
  have l8 := chomp_length h8
  have d2 := dropWS_length s1
  have d3 := dropWS_length s2
  have d4 := dropWS_length s3
  have d5 := dropWS_length s4
  have d6 := dropWS_length s5
  have d8 := dropWS_length s7
  have lp : ("addappid(".toList).length = 9 := by decide
  omega

theorem matchManAt_length {s : List Char} {p : Nat × String} {r : List Char}
    (h : matchManAt s = some (p, r)) : r.length < s.length := by
  unfold matchManAt at h
  simp only [Option.bind_eq_bind, Option.bind_eq_some] at h
  obtain ⟨s1, h1, h⟩ := h
  obtain ⟨⟨d, s2⟩, h2, h⟩ := h
  obtain ⟨s3, h3, h⟩ := h
  obtain ⟨s4, h4, h⟩ := h
  obtain ⟨⟨m, s5⟩, h5, h⟩ := h
  obtain ⟨s6, h6, h⟩ := h
  obtain ⟨r2, h7, h⟩ := h
  simp only [Option.some_inj] at h
  cases h
  dsimp only at *
  have l1 := stripCI_length h1
  have l2 := (takeDigs1_length h2).1
  have l3 := chomp_length h3
  have l4 := chomp_length h4
  have l5 := (takeDigs1_length h5).1
  have l6 := chomp_length h6
  have l7 := manClose_length h7
  have d2 := dropWS_length s1
  have d3 := dropWS_length s2
  have d4 := dropWS_length s3
  have lp : ("setmanifestid(".toList).length = 14 := by decide
  omega

/-! ### `re.findall` / `re.search` scanners

`re.findall` scans left to right: at each position it tries the pattern; on
a match it records the captures and resumes after the match, otherwise it
advances one character.  The scanners are written with an explicit fuel
argument (initially the length of the text) so that they are structurally
recursive; the `_eq` lemmas below give the natural unfolding. -/

def scanTokF : Nat → List Char → List (Nat × String)
  | 0, _ => []
  | _ + 1, [] => []
  | fuel + 1, c :: t =>
    match matchTokAt (c :: t) with
    | some (p, r) => p :: scanTokF fuel r
    | none => scanTokF fuel t

/-- `RE_ADDAPPID_TOKEN.findall(text)` (with captures already converted to
`(int(depot), token)`). -/
def scanTok (s : List Char) : List (Nat × String) := scanTokF s.length s

def scanManF : Nat → List Char → List (Nat × String)
  | 0, _ => []
  | _ + 1, [] => []
  | fuel + 1, c :: t =>
    match matchManAt (c :: t) with
    | some (p, r) => p :: scanManF fuel r
    | none => scanManF fuel t

/-- `RE_SETMANIFEST.findall(text)`. -/
def scanMan (s : List Char) : List (Nat × String) := scanManF s.length s

theorem scanTokF_congr : ∀ {f₁ f₂ : Nat} {s : List Char}, s.length ≤ f₁ →
    s.length ≤ f₂ → scanTokF f₁ s = scanTokF f₂ s
  | 0, 0, _, _, _ => rfl
  | 0, _ + 1, s, h₁, _ => by
    rw [Nat.le_zero] at h₁
    rw [List.length_eq_zero] at h₁
    subst h₁
    rfl
  | _ + 1, 0, s, _, h₂ => by
    rw [Nat.le_zero] at h₂
    rw [List.length_eq_zero] at h₂
    subst h₂
    rfl
  | f₁ + 1, f₂ + 1, [], _, _ => rfl
  | f₁ + 1, f₂ + 1, c :: t, h₁, h₂ => by
    simp only [scanTokF]
    simp only [List.length_cons] at h₁ h₂
    cases hm : matchTokAt (c :: t) with
    | some pr =>
      obtain ⟨p, r⟩ := pr
      have hl : r.length < t.length + 1 := matchTokAt_length hm
      exact congrArg (p :: ·) (scanTokF_congr (by omega) (by omega))
    | none => exact scanTokF_congr (by omega) (by omega)

theorem scanManF_congr : ∀ {f₁ f₂ : Nat} {s : List Char}, s.length ≤ f₁ →
    s.length ≤ f₂ → scanManF f₁ s = scanManF f₂ s
  | 0, 0, _, _, _ => rfl
  | 0, _ + 1, s, h₁, _ => by
    rw [Nat.le_zero] at h₁
    rw [List.length_eq_zero] at h₁
    subst h₁
    rfl
  | _ + 1, 0, s, _, h₂ => by
    rw [Nat.le_zero] at h₂
    rw [List.length_eq_zero] at h₂
    subst h₂
    rfl
  | f₁ + 1, f₂ + 1, [], _, _ => rfl
  | f₁ + 1, f₂ + 1, c :: t, h₁, h₂ => by
    simp only [scanManF]
    simp only [List.length_cons] at h₁ h₂
    cases hm : matchManAt (c :: t) with
    | some pr =>
      obtain ⟨p, r⟩ := pr
      have hl : r.length < t.length + 1 := matchManAt_length hm
      exact congrArg (p :: ·) (scanManF_congr (by omega) (by omega))
    | none => exact scanManF_congr (by omega) (by omega)

@[simp] theorem scanTok_nil : scanTok [] = [] := rfl

theorem scanTok_eq (c : Char) (t : List Char) : scanTok (c :: t) =
    match matchTokAt (c :: t) with
    | some (p, r) => p :: scanTok r
    | none => scanTok t := by
  show scanTokF (t.length + 1) (c :: t) = _
  simp only [scanTokF]
  cases hm : matchTokAt (c :: t) with
  | some pr =>
    obtain ⟨p, r⟩ := pr
    have hl : r.length < t.length + 1 := matchTokAt_length hm
    exact congrArg (p :: ·) (scanTokF_congr (by omega) (le_refl _))
  | none => exact scanTokF_congr (le_refl _) (le_refl _)

@[simp] theorem scanMan_nil : scanMan [] = [] := rfl

theorem scanMan_eq (c : Char) (t : List Char) : scanMan (c :: t) =
    match matchManAt (c :: t) with
    | some (p, r) => p :: scanMan r
    | none => scanMan t := by
  show scanManF (t.length + 1) (c :: t) = _
  simp only [scanManF]
  cases hm : matchManAt (c :: t) with
  | some pr =>
    obtain ⟨p, r⟩ := pr
    have hl : r.length < t.length + 1 := matchManAt_length hm
    exact congrArg (p :: ·) (scanManF_congr (by omega) (le_refl _))
  | none => exact scanManF_congr (le_refl _) (le_refl _)

/-- `RE_ADDAPPID_SINGLE.search(text)`: the first position where the pattern
(with its lookahead) matches; returns `int` of the capture. -/
def searchSingle : List Char → Option Nat
  | [] => none
  | c :: t =>
    match matchSingleAt (c :: t) with
    | some d => some d
    | none => searchSingle t

/-! ### Python dicts built from capture lists

`{int(d): t for d, t in RE.findall(text)}` iterates the matches in textual
order; a repeated key keeps its original position but receives the later
value.  Dicts are modelled as association lists in key-insertion order. -/

def dinsert {κ α : Type} [DecidableEq κ] (l : List (κ × α)) (p : κ × α) :
    List (κ × α) :=
  if l.any (fun q => q.1 = p.1) then
    l.map (fun q => if q.1 = p.1 then p else q)
  else l ++ [p]

/-- Build a Python dict from an iteration order of key-value pairs. -/
def dictOf {κ α : Type} [DecidableEq κ] (ps : List (κ × α)) : List (κ × α) :=
  ps.foldl dinsert []

/-- `d.get(k)` on the association-list dict. -/
def dlookup {κ α : Type} [DecidableEq κ] (k : κ) (l : List (κ × α)) : Option α :=
  (l.find? (fun q => q.1 = k)).map (fun q => q.2)

theorem find?_map_upd_of_ne {κ α : Type} [DecidableEq κ] (l : List (κ × α))
    (p : κ × α) (k : κ) (hk : p.1 ≠ k) :
    (l.map (fun q => if q.1 = p.1 then p else q)).find? (fun q => decide (q.1 = k))
      = l.find? (fun q => decide (q.1 = k)) := by
  induction l with
  | nil => rfl
  | cons q l ih =>
    rw [List.map_cons]
    by_cases hq : q.1 = k
    · have hqp : ¬ q.1 = p.1 := by rw [hq]; exact fun h => hk h.symm
      rw [if_neg hqp, List.find?_cons_of_pos _ (by simp [hq]),
        List.find?_cons_of_pos _ (by simp [hq])]
    · by_cases hqp : q.1 = p.1
      · rw [if_pos hqp, List.find?_cons_of_neg _ (by simp; rw [← hqp] at hk ⊢; exact hk),
          List.find?_cons_of_neg _ (by simp [hq]), ih]
      · rw [if_neg hqp, List.find?_cons_of_neg _ (by simp [hq]),
          List.find?_cons_of_neg _ (by simp [hq]), ih]

theorem find?_map_upd_self {κ α : Type} [DecidableEq κ] (l : List (κ × α))
    (p : κ × α) (hmem : l.any (fun q => decide (q.1 = p.1)) = true) :
    (l.map (fun q => if q.1 = p.1 then p else q)).find? (fun q => decide (q.1 = p.1))
      = some p := by
  induction l with
  | nil => simp at hmem
  | cons q l ih =>
    rw [List.map_cons]
    by_cases hq : q.1 = p.1
    · rw [if_pos hq, List.find?_cons_of_pos _ (by simp)]
    · rw [if_neg hq, List.find?_cons_of_neg _ (by simp [hq])]
      apply ih
      simp only [List.any_cons, Bool.or_eq_true, decide_eq_true_eq] at hmem
      rcases hmem with h | h
      · exact absurd h hq
      · simpa using h

theorem find?_none_of_not_any {κ α : Type} [DecidableEq κ] (l : List (κ × α))
    (k : κ) (hmem : ¬ l.any (fun q => decide (q.1 = k)) = true) :
    l.find? (fun q => decide (q.1 = k)) = none := by
  rw [List.find?_eq_none]
  intro q hq
  simp only [decide_eq_true_eq]
  intro hqk
  exact hmem (by rw [List.any_eq_true]; exact ⟨q, hq, by simp [hqk]⟩)

theorem dlookup_dinsert {κ α : Type} [DecidableEq κ] (l : List (κ × α))
    (p : κ × α) (k : κ) :
    dlookup k (dinsert l p) = if p.1 = k then some p.2 else dlookup k l := by
  unfold dinsert dlookup
  by_cases hmem : l.any (fun q => decide (q.1 = p.1)) = true
  · rw [if_pos hmem]
    by_cases hk : p.1 = k
    · subst hk
      rw [find?_map_upd_self l p hmem]
      simp
    · rw [find?_map_upd_of_ne l p k hk, if_neg hk]
  · rw [if_neg hmem, List.find?_append]
    by_cases hk : p.1 = k
    · subst hk
      rw [find?_none_of_not_any l p.1 hmem]
      simp [List.find?]
    · cases hl : l.find? (fun q => decide (q.1 = k)) with
      | some q => simp [hl, hk]
      | none =>
        simp only [hl, Option.none_or, if_neg hk]
        rw [List.find?_cons_of_neg _ (by simpa using hk), List.find?_nil]

/-- Folding a capture list into a dict: the lookup of a key is the value of
its *last* occurrence in the capture list. -/
theorem dlookup_foldl_dinsert {κ α : Type} [DecidableEq κ] (ps acc : List (κ × α))
    (k : κ) : dlookup k (ps.foldl dinsert acc) =
      (((ps.filter (fun q => decide (q.1 = k))).getLast?).map (fun q => q.2)).or
        (dlookup k acc) := by
  induction ps generalizing acc with
  | nil => simp
  | cons p ps ih =>
    rw [List.foldl_cons, ih]
    by_cases hk : p.1 = k
    · rw [List.filter_cons_of_pos (by simp [hk])]
      cases hfl : ps.filter (fun q => decide (q.1 = k)) with
      | nil => simp [dlookup_dinsert, hk]
      | cons q qs =>
        rw [List.getLast?_cons_cons]
        cases hgl : (q :: qs).getLast? with
        | none => simp at hgl
        | some r => simp [hgl]
    · rw [List.filter_cons_of_neg (by simp [hk]), dlookup_dinsert, if_neg hk]

theorem dlookup_dictOf {κ α : Type} [DecidableEq κ] (ps : List (κ × α)) (k : κ) :
    dlookup k (dictOf ps) =
      ((ps.filter (fun q => decide (q.1 = k))).getLast?).map (fun q => q.2) := by
  unfold dictOf
  rw [dlookup_foldl_dinsert]
  simp [dlookup]

/-! ### `parse_all_from_content` and `build_lua_content_multi` -/

/-- Result of `parse_all_from_content`: appid (or `None`), and the two dicts
`{depot: token}` and `{depot: manifest_id}`. -/
structure Parsed where
  appid : Option Nat
  tokens : List (Nat × String)
  manifests : List (Nat × String)
deriving DecidableEq

/-- `parse_all_from_content(text)` from the source: `RE_ADDAPPID_SINGLE.search`
for the appid, dict comprehensions over `findall` for tokens and manifests. -/
def parse_all_from_content (text : String) : Parsed :=
  { appid := searchSingle text.data
    tokens := dictOf (scanTok text.data)
    manifests := dictOf (scanMan text.data) }

/-- `f"addappid({appid})"`. -/
def appidLine (appid : Nat) : List Char :=
  ("addappid(".toList) ++ natToDec appid ++ [')']

/-- `f'addappid({d},1,"{tok}")'`. -/
def tokenLine (d : Nat) (t : String) : List Char :=
  ("addappid(".toList) ++ natToDec d ++ [',', '1', ',', '"'] ++ t.data ++ ['"', ')']

/-- `f'setManifestid({d},"{mid}",0)'`. -/
def manLine (d : Nat) (m : String) : List Char :=
  ("setManifestid(".toList) ++ natToDec d ++ [',', '"'] ++ m.data ++ ['"', ',', '0', ')']

/-- Insert into a strictly ascending list of distinct keys — the model of
Python's `sorted(set(...))`. -/
def insSorted (k : Nat) : List Nat → List Nat
  | [] => [k]
  | x :: xs => if k < x then k :: x :: xs else if k = x then x :: xs else x :: insSorted k xs

/-- `sorted(set(tokens.keys()) | set(manifests.keys()))`. -/
def sortedKeys (tokens manifests : List (Nat × String)) : List Nat :=
  ((tokens.map Prod.fst) ++ (manifests.map Prod.fst)).foldr insSorted []

/-- `tokens.get(d)` filtered through Python truthiness (`if tok:`). -/
def tokenValue (tokens : List (Nat × String)) (d : Nat) : Option String :=
  (dlookup d tokens).bind fun t => if t = "" then none else some t

/-- The token lines: one per depot (ascending) whose token is truthy. -/
def tokenLines (ds : List Nat) (tokens : List (Nat × String)) : List (List Char) :=
  ds.filterMap fun d => (tokenValue tokens d).map (tokenLine d)

/-- The manifest lines: one per depot (ascending) whose manifest id is truthy. -/
def manLines (ds : List Nat) (manifests : List (Nat × String)) : List (List Char) :=
  ds.filterMap fun d => (tokenValue manifests d).map (manLine d)

/-- `"\n".join(lines) + "\n"`: every line followed by a newline. -/
def joinLines (lines : List (List Char)) : List Char :=
  lines.foldr (fun l acc => l ++ '\n' :: acc) []

/-- `build_lua_content_multi(appid, tokens, manifests)` from the source. -/
def build_lua_content_multi (appid : Nat) (tokens manifests : List (Nat × String)) :
    String :=
  let ds := sortedKeys tokens manifests
  String.mk (joinLines (appidLine appid ::
    (tokenLines ds tokens ++ manLines ds manifests)))

example : parse_all_from_content
    ("addappid(100)\naddappid(200,1,\"abc\")\nsetManifestid(200,\"555\",0)\n")
      = { appid := some 100, tokens := [(200, "abc")], manifests := [(200, "555")] } := by
  decide

example : build_lua_content_multi 100 [(200, "abc")] [(200, "555")]
    = "addappid(100)\naddappid(200,1,\"abc\")\nsetManifestid(200,\"555\",0)\n" := by
  decide

/-! ### Claim C10 -/

/-- Claim C10 (confirmed): for every text, the token dict (resp. manifest
dict) built by `parse_all_from_content` maps a depot id that occurs in two or
more well-formed token (resp. manifest) markers to the value of the *last*
matching occurrence in textual order — later occurrences silently overwrite
earlier ones. -/
theorem claim_C10_parse_last_occurrence_wins (text : String) (d : Nat) :
    (2 ≤ ((scanTok text.data).filter (fun q => decide (q.1 = d))).length →
      dlookup d (parse_all_from_content text).tokens =
        ((scanTok text.data).filter (fun q => decide (q.1 = d))).getLast?.map
          (fun q => q.2)) ∧
    (2 ≤ ((scanMan text.data).filter (fun q => decide (q.1 = d))).length →
      dlookup d (parse_all_from_content text).manifests =
        ((scanMan text.data).filter (fun q => decide (q.1 = d))).getLast?.map
          (fun q => q.2)) := by
  exact ⟨fun _ => dlookup_dictOf (scanTok text.data) d,
         fun _ => dlookup_dictOf (scanMan text.data) d⟩

/-- Witness for C10 at a concrete text with two token markers and two
manifest markers for depot 7: parsing keeps the later values. -/
theorem claim_C10_witness :
    dlookup 7 (parse_all_from_content
      ("addappid(7,1,\"x\") addappid(7,1,\"y\") setManifestid(7,\"11\") setManifestid(7,\"22\")")).tokens
        = some "y" ∧
    dlookup 7 (parse_all_from_content
      ("addappid(7,1,\"x\") addappid(7,1,\"y\") setManifestid(7,\"11\") setManifestid(7,\"22\")")).manifests
        = some "22" := by
  have h := claim_C10_parse_last_occurrence_wins
    ("addappid(7,1,\"x\") addappid(7,1,\"y\") setManifestid(7,\"11\") setManifestid(7,\"22\")") 7
  exact ⟨by rw [h.1 (by decide)]; decide, by rw [h.2 (by decide)]; decide⟩

/-! ### Claim C9 -/

/-- `re.search(r"\d+", stem)`: the first maximal digit run in the stem. -/
def firstDigitRun (s : List Char) : Option (List Char) :=
  match s.dropWhile (fun c => ! isDig c) with
  | [] => none
  | r => some (r.takeWhile isDig)

/-- `infer_appid_from_filename` from the source; `none` models the
`ValueError` raised when the stem has no digits. -/
def infer_appid_from_filename (stem : String) : Option Nat :=
  (firstDigitRun stem.data).map digitsVal

/-- The appid computation of `InjectWorker.run` (lines 712-719):
`parsed.get("appid") or sidecar.get("appid")`, falling back to
`infer_appid_from_filename` and finally `0`.  Note Python truthiness: an
appid of `0` counts as absent. -/
def inject_appid (parsedAppid sidecarAppid : Option Nat) (stem : String) : Nat :=
  let truthy : Option Nat → Option Nat :=
    fun a => a.bind fun n => if n = 0 then none else some n
  match (truthy parsedAppid).or (truthy sidecarAppid) with
  | some a => a
  | none =>
    match infer_appid_from_filename stem with
    | some v => v
    | none => 0

/-- Claim C9 (confirmed): a text with no single-argument appid marker parses
to an absent appid regardless of the depot maps, and at injection time, when
both the text and the sidecar lack an appid, the recorded appid is the
integer formed by the stem's first digit run, or 0 when the stem has no
digits. -/
theorem claim_C9_appid_fallback (text stem : String)
    (h : searchSingle text.data = none) :
    (parse_all_from_content text).appid = none ∧
    inject_appid (parse_all_from_content text).appid none stem =
      (match firstDigitRun stem.data with
       | some run => digitsVal run
       | none => 0) ∧
    ((∀ c ∈ stem.data, isDig c = false) →
      inject_appid (parse_all_from_content text).appid none stem = 0) := by
  have happ : (parse_all_from_content text).appid = none := h
  refine ⟨happ, ?_, ?_⟩
  · rw [happ]
    unfold inject_appid infer_appid_from_filename
    cases firstDigitRun stem.data <;> simp
  · intro hnd
    rw [happ]
    unfold inject_appid infer_appid_from_filename firstDigitRun
    have : stem.data.dropWhile (fun c => ! isDig c) = [] :=
      dropWhile_all (fun c hc => by simp [hnd c hc])
    rw [this]
    simp

/-- Witness for C9: a descriptor with depot entries but no appid marker, and
a stem whose first digit run is `123`. -/
theorem claim_C9_witness :
    (parse_all_from_content ("addappid(5,1,\"t\")\nsetManifestid(5,\"99\",0)\n")).appid
      = none ∧
    inject_appid
      (parse_all_from_content ("addappid(5,1,\"t\")\nsetManifestid(5,\"99\",0)\n")).appid
      none ("game123x4") = 123 := by
  have h := claim_C9_appid_fallback ("addappid(5,1,\"t\")\nsetManifestid(5,\"99\",0)\n")
    ("game123x4") (by decide)
  exact ⟨h.1, by rw [h.2.1]; decide⟩

/-! ### Round-trip infrastructure: character facts -/

theorem digit_lowerC_eq {c : Char} (h : isDig c = true) : lowerC c = c := by
  simp only [isDig, Bool.and_eq_true, decide_eq_true_eq] at h
  unfold lowerC
  rw [if_neg (by omega)]

theorem digit_lowerC_ne {c : Char} (h : isDig c = true) (x : Char)
    (hx : isDig x = false) : ¬ lowerC c = x := by
  rw [digit_lowerC_eq h]
  intro he
  subst he
  rw [h] at hx
  cases hx

theorem digit_not_isWS {c : Char} (h : isDig c = true) : isWS c = false := by
  simp only [isDig, Bool.and_eq_true, decide_eq_true_eq] at h
  simp only [isWS, Bool.or_eq_false_iff, decide_eq_false_iff_not]
  omega

theorem digit_notQ {c : Char} (h : isDig c = true) : notQ c = true := by
  simp only [notQ, bne_iff_ne, ne_eq]
  intro he
  subst he
  cases h

/-- `stripCI` against a text that begins with the pattern verbatim (after
lower-casing). -/
theorem stripCI_exact {p q : List Char} (h : q.map lowerC = p) (s : List Char) :
    stripCI p (q ++ s) = some s := by
  induction q generalizing p with
  | nil => subst h; rfl
  | cons c cs ih =>
    subst h
    rw [List.cons_append]
    show stripCI (lowerC c :: cs.map lowerC) (c :: (cs ++ s)) = some s
    unfold stripCI
    rw [if_pos rfl]
    exact ih rfl

theorem stripCI_cons_neg {q : Char} {ps : List Char} {c : Char} {cs : List Char}
    (h : ¬ lowerC c = q) : stripCI (q :: ps) (c :: cs) = none := by
  unfold stripCI
  rw [if_neg h]

theorem dropWS_cons_of_neg {c : Char} (h : isWS c = false) (s : List Char) :
    dropWS (c :: s) = c :: s := by
  unfold dropWS
  rw [List.dropWhile_cons, h]
  simp

theorem takeRun1_run {p : Char → Bool} {u : List Char} {c₀ : Char} (w : List Char)
    (hu : ∀ c ∈ u, p c = true) (hne : u ≠ []) (hc : p c₀ = false) :
    takeRun1 p (u ++ c₀ :: w) = some (u, c₀ :: w) := by
  unfold takeRun1
  obtain ⟨ht, hd⟩ := takeWhile_run w hu hc
  rw [ht, hd]
  cases u with
  | nil => exact absurd rfl hne
  | cons x xs => rfl

theorem chomp_self (c : Char) (s : List Char) : chomp c (c :: s) = some s := by
  simp [chomp]

theorem chomp_neg {x c : Char} (h : ¬ x = c) (s : List Char) :
    chomp c (x :: s) = none := by
  simp [chomp, h]

/-! ### Round-trip infrastructure: failure lemmas for `scanTok` -/

theorem matchTokAt_fail_head {c : Char} {t : List Char} (h : ¬ lowerC c = 'a') :
    matchTokAt (c :: t) = none := by
  unfold matchTokAt
  rw [show ("addappid(".toList) = 'a' :: ("ddappid(".toList) from by decide,
    stripCI_cons_neg h]
  rfl

theorem matchTokAt_fail2 {c c₂ : Char} {t : List Char} (h : ¬ lowerC c₂ = 'd') :
    matchTokAt (c :: c₂ :: t) = none := by
  by_cases hc : lowerC c = 'a'
  · unfold matchTokAt
    rw [show ("addappid(".toList) = 'a' :: 'd' :: ("dappid(".toList) from by decide]
    show Option.bind (stripCI ('a' :: 'd' :: ("dappid(".toList)) (c :: c₂ :: t)) _ = none
    unfold stripCI
    rw [if_pos hc]
    unfold stripCI
    rw [if_neg h]
    rfl
  · exact matchTokAt_fail_head hc

theorem scanTok_cons_none {c : Char} {t : List Char}
    (h : matchTokAt (c :: t) = none) : scanTok (c :: t) = scanTok t := by
  rw [scanTok_eq, h]

theorem scanTok_cons_some {c : Char} {t : List Char} {p : Nat × String}
    {r : List Char} (h : matchTokAt (c :: t) = some (p, r)) :
    scanTok (c :: t) = p :: scanTok r := by
  rw [scanTok_eq, h]

theorem scanMan_cons_none {c : Char} {t : List Char}
    (h : matchManAt (c :: t) = none) : scanMan (c :: t) = scanMan t := by
  rw [scanMan_eq, h]

theorem scanMan_cons_some {c : Char} {t : List Char} {p : Nat × String}
    {r : List Char} (h : matchManAt (c :: t) = some (p, r)) :
    scanMan (c :: t) = p :: scanMan r := by
  rw [scanMan_eq, h]

theorem scanTok_skip_digits {u : List Char} (h : ∀ c ∈ u, isDig c = true)
    (t : List Char) : scanTok (u ++ t) = scanTok t := by
  induction u with
  | nil => rfl
  | cons c s ih =>
    rw [List.cons_append,
      scanTok_cons_none (matchTokAt_fail_head
        (digit_lowerC_ne (h c (by simp)) 'a' (by decide)))]
    exact ih fun c hc => h c (by simp [hc])

theorem matchManAt_fail_head {c : Char} {t : List Char} (h : ¬ lowerC c = 's') :
    matchManAt (c :: t) = none := by
  unfold matchManAt
  rw [show ("setmanifestid(".toList) = 's' :: ("etmanifestid(".toList) from by decide,
    stripCI_cons_neg h]
  rfl

theorem scanMan_skip_digits {u : List Char} (h : ∀ c ∈ u, isDig c = true)
    (t : List Char) : scanMan (u ++ t) = scanMan t := by
  induction u with
  | nil => rfl
  | cons c s ih =>
    rw [List.cons_append,
      scanMan_cons_none (matchManAt_fail_head
        (digit_lowerC_ne (h c (by simp)) 's' (by decide)))]
    exact ih fun c hc => h c (by simp [hc])

/-! ### Round-trip infrastructure: the generated lines match as intended -/

theorem dropWS_digits {u : List Char} (hu : ∀ c ∈ u, isDig c = true)
    (hne : u ≠ []) (v : List Char) : dropWS (u ++ v) = u ++ v := by
  cases u with
  | nil => exact absurd rfl hne
  | cons x xs =>
    rw [List.cons_append]
    exact dropWS_cons_of_neg (digit_not_isWS (hu x (by simp))) _

/-- A serialized token line `addappid(D,1,"tok")` matches `RE_ADDAPPID_TOKEN`
at its start, capturing exactly `(D, tok)` and consuming the whole line. -/
theorem matchTokAt_tokenLine (d : Nat) (t : String) (rest : List Char)
    (ht : t.data ≠ []) (hq : ∀ c ∈ t.data, notQ c = true) :
    matchTokAt (tokenLine d t ++ rest) = some ((d, t), rest) := by
  have hdig := natToDec_all_digits d
  have hdne := natToDec_ne_nil d
  have h0 : tokenLine d t ++ rest = ("addappid(".toList) ++
      (natToDec d ++ ',' :: '1' :: ',' :: '"' :: (t.data ++ '"' :: ')' :: rest)) := by
    unfold tokenLine
    simp [List.append_assoc]
  rw [h0]
  unfold matchTokAt
  rw [stripCI_exact (by decide)]
  simp only [Option.bind_eq_bind, Option.some_bind]
  rw [dropWS_digits hdig hdne]
  unfold takeDigs1
  rw [@takeRun1_run isDig (natToDec d) ','
    ('1' :: ',' :: '"' :: (t.data ++ '"' :: ')' :: rest)) hdig hdne (by decide)]
  simp only [Option.some_bind]
  rw [dropWS_cons_of_neg (by decide), chomp_self]
  simp only [Option.some_bind]
  rw [dropWS_cons_of_neg (by decide)]
  show Option.bind (flagChar ('1' :: ',' :: '"' :: (t.data ++ '"' :: ')' :: rest))) _
    = _
  rw [show flagChar ('1' :: ',' :: '"' :: (t.data ++ '"' :: ')' :: rest))
      = some (',' :: '"' :: (t.data ++ '"' :: ')' :: rest)) from by simp [flagChar]]
  simp only [Option.some_bind]
  rw [dropWS_cons_of_neg (by decide), chomp_self]
  simp only [Option.some_bind]
  rw [dropWS_cons_of_neg (by decide), chomp_self]
  simp only [Option.some_bind]
  rw [@takeRun1_run notQ t.data '"' (')' :: rest) hq ht (by decide)]
  simp only [Option.some_bind]
  rw [chomp_self]
  simp only [Option.some_bind]
  rw [dropWS_cons_of_neg (by decide), chomp_self]
  simp only [Option.some_bind]
  rw [digitsVal_natToDec]
  cases t
  rfl

theorem manClose_std (rest : List Char) :
    manClose (',' :: '0' :: ')' :: rest) = some rest := by
  unfold manClose
  rw [dropWS_cons_of_neg (by decide)]
  simp only [List.dropWhile_cons]
  simp [notP]

/-- A serialized manifest line `setManifestid(D,"mid",0)` matches
`RE_SETMANIFEST` at its start, capturing exactly `(D, mid)` and consuming the
whole line. -/
theorem matchManAt_manLine (d : Nat) (m : String) (rest : List Char)
    (hm : m.data ≠ []) (hdigm : ∀ c ∈ m.data, isDig c = true) :
    matchManAt (manLine d m ++ rest) = some ((d, m), rest) := by
  have hdig := natToDec_all_digits d
  have hdne := natToDec_ne_nil d
  have h0 : manLine d m ++ rest = ("setManifestid(".toList) ++
      (natToDec d ++ ',' :: '"' :: (m.data ++ '"' :: ',' :: '0' :: ')' :: rest)) := by
    unfold manLine
    simp [List.append_assoc]
  rw [h0]
  unfold matchManAt
  rw [stripCI_exact (by decide)]
  simp only [Option.bind_eq_bind, Option.some_bind]
  rw [dropWS_digits hdig hdne]
  unfold takeDigs1
  rw [@takeRun1_run isDig (natToDec d) ','
    ('"' :: (m.data ++ '"' :: ',' :: '0' :: ')' :: rest)) hdig hdne (by decide)]
  simp only [Option.some_bind]
  rw [dropWS_cons_of_neg (by decide), chomp_self]
  simp only [Option.some_bind]
  rw [dropWS_cons_of_neg (by decide), chomp_self]
  simp only [Option.some_bind]
  rw [@takeRun1_run isDig m.data '"' (',' :: '0' :: ')' :: rest) hdigm hm (by decide)]
  simp only [Option.some_bind]
  rw [chomp_self]
  simp only [Option.some_bind]
  rw [manClose_std]
  simp only [Option.some_bind]
  rw [digitsVal_natToDec]
  cases m
  rfl

/-- The first serialized line `addappid(appid)` matches `RE_ADDAPPID_SINGLE`
(including its lookahead) whenever the first non-whitespace character of the
remaining text is not a comma. -/
theorem matchSingleAt_appidLine (a : Nat) (rest : List Char)
    (hla : ∀ r, dropWS rest ≠ ',' :: r) :
    matchSingleAt (appidLine a ++ rest) = some a := by
  have hdig := natToDec_all_digits a
  have hdne := natToDec_ne_nil a
  have h0 : appidLine a ++ rest = ("addappid(".toList) ++ (natToDec a ++ ')' :: rest) := by
    unfold appidLine
    simp [List.append_assoc]
  rw [h0]
  unfold matchSingleAt
  rw [stripCI_exact (by decide)]
  simp only [Option.bind_eq_bind, Option.some_bind]
  rw [dropWS_digits hdig hdne]
  unfold takeDigs1
  rw [@takeRun1_run isDig (natToDec a) ')' rest hdig hdne (by decide)]
  simp only [Option.some_bind]
  rw [dropWS_cons_of_neg (by decide), chomp_self]
  simp only [Option.some_bind]
  rw [digitsVal_natToDec]
  cases hdr : dropWS rest with
  | nil => rfl
  | cons c r =>
    have hcne : ¬ c = ',' := fun hc => hla r (by rw [hdr, hc])
    show (if c = ',' then none else some a) = some a
    rw [if_neg hcne]

theorem searchSingle_cons_some {c : Char} {t : List Char} {d : Nat}
    (h : matchSingleAt (c :: t) = some d) : searchSingle (c :: t) = some d := by
  unfold searchSingle
  rw [h]

/-! ### `RE_SETMANIFEST` cannot fire from inside a quote-free token

A token string contains no `"`; the only quote reachable from inside it is
the token's own closing quote, after which the serialized text continues
with `)`, which can neither start the required `"(\d+)"` capture nor be a
digit.  Hence no suffix of the token can start a manifest match. -/

theorem mem_dropWhile_imp {p : Char → Bool} {l : List Char} {c : Char}
    (h : c ∈ l.dropWhile p) : c ∈ l := by
  induction l with
  | nil => simp at h
  | cons x xs ih =>
    rw [List.dropWhile_cons] at h
    split at h
    · exact List.mem_cons_of_mem x (ih h)
    · exact h

theorem stripCI_quote_bdry {p : List Char} (hp : ∀ c ∈ p, c ≠ '"') :
    ∀ {u : List Char}, (∀ c ∈ u, c ≠ '"') → ∀ {v s : List Char},
    stripCI p (u ++ '"' :: v) = some s →
      ∃ u1, s = u1 ++ '"' :: v ∧ ∀ c ∈ u1, c ≠ '"' := by
  induction p with
  | nil =>
    intro u hq v s h
    simp only [stripCI, Option.some_inj] at h
    exact ⟨u, h.symm, hq⟩
  | cons q ps ih =>
    intro u hq v s h
    cases u with
    | nil =>
      rw [List.nil_append] at h
      unfold stripCI at h
      rw [show lowerC '"' = '"' from by decide] at h
      rw [if_neg (fun he => hp q (by simp) he.symm)] at h
      cases h
    | cons c u2 =>
      rw [List.cons_append] at h
      unfold stripCI at h
      split at h
      · exact ih (fun x hx => hp x (by simp [hx])) (fun x hx => hq x (by simp [hx])) h
      · cases h

theorem matchManAt_fail_quoteFree {u : List Char} (hq : ∀ c ∈ u, c ≠ '"')
    {c₀ : Char} (hc : isDig c₀ = false) (w : List Char) :
    matchManAt (u ++ '"' :: c₀ :: w) = none := by
  unfold matchManAt
  cases hstrip : stripCI ("setmanifestid(".toList) (u ++ '"' :: c₀ :: w) with
  | none => rfl
  | some s1 =>
    obtain ⟨u1, hs1, hq1⟩ := stripCI_quote_bdry (by decide) hq hstrip
    subst hs1
    simp only [Option.bind_eq_bind, Option.some_bind]
    rw [show dropWS (u1 ++ '"' :: c₀ :: w) = u1.dropWhile isWS ++ '"' :: c₀ :: w from
      dropWhile_append_bdry u1 (c₀ :: w) (by decide)]
    have hq2 : ∀ c ∈ u1.dropWhile isWS, c ≠ '"' :=
      fun c hcm => hq1 c (mem_dropWhile_imp hcm)
    unfold takeDigs1 takeRun1
    rw [takeWhile_append_bdry (u1.dropWhile isWS) (c₀ :: w) (by decide)]
    cases htw : (u1.dropWhile isWS).takeWhile isDig with
    | nil => rfl
    | cons x xs =>
      simp only [Option.some_bind]
      rw [dropWhile_append_bdry (u1.dropWhile isWS) (c₀ :: w) (by decide)]
      have hq3 : ∀ c ∈ (u1.dropWhile isWS).dropWhile isDig, c ≠ '"' :=
        fun c hcm => hq2 c (mem_dropWhile_imp hcm)
      rw [show dropWS ((u1.dropWhile isWS).dropWhile isDig ++ '"' :: c₀ :: w)
          = ((u1.dropWhile isWS).dropWhile isDig).dropWhile isWS ++ '"' :: c₀ :: w from
        dropWhile_append_bdry _ (c₀ :: w) (by decide)]
      have hq4 : ∀ c ∈ ((u1.dropWhile isWS).dropWhile isDig).dropWhile isWS, c ≠ '"' :=
        fun c hcm => hq3 c (mem_dropWhile_imp hcm)
      cases hu4 : ((u1.dropWhile isWS).dropWhile isDig).dropWhile isWS with
      | nil =>
        rw [List.nil_append, chomp_neg (by decide)]
        rfl
      | cons y ys =>
        rw [List.cons_append]
        by_cases hy : y = ','
        · rw [hy, chomp_self]
          simp only [Option.some_bind]
          rw [show dropWS (ys ++ '"' :: c₀ :: w) = ys.dropWhile isWS ++ '"' :: c₀ :: w from
            dropWhile_append_bdry ys (c₀ :: w) (by decide)]
          have hq5 : ∀ c ∈ ys.dropWhile isWS, c ≠ '"' := by
            intro c hcm
            apply hq4 c
            rw [hu4, hy]
            exact List.mem_cons_of_mem _ (mem_dropWhile_imp hcm)
          cases hu5 : ys.dropWhile isWS with
          | nil =>
            rw [List.nil_append, chomp_self]
            simp only [Option.some_bind]
            rw [List.takeWhile_cons, if_neg (by rw [hc]; simp)]
            rfl
          | cons z zs =>
            rw [List.cons_append, chomp_neg (by
              intro he
              exact hq5 z (by rw [hu5]; simp) he)]
            rfl
        · rw [chomp_neg hy]
          rfl

theorem scanMan_skip_quoteFree {u : List Char} (hq : ∀ c ∈ u, c ≠ '"')
    {c₀ : Char} (hc : isDig c₀ = false) (w : List Char) :
    scanMan (u ++ '"' :: c₀ :: w) = scanMan ('"' :: c₀ :: w) := by
  induction u with
  | nil => rfl
  | cons c s ih =>
    have hfail : matchManAt (c :: (s ++ '"' :: c₀ :: w)) = none := by
      rw [← List.cons_append]
      exact @matchManAt_fail_quoteFree (c :: s) (fun x hx => hq x hx) _ hc w
    rw [List.cons_append, scanMan_cons_none hfail]
    exact ih fun x hx => hq x (by simp [hx])

/-! ### Scanning past whole serialized lines -/

theorem scanTok_step_notA (c : Char) (hc : ¬ lowerC c = 'a') (t : List Char) :
    scanTok (c :: t) = scanTok t :=
  scanTok_cons_none (matchTokAt_fail_head hc)

theorem scanTok_step_a_notD (c c₂ : Char) (h : ¬ lowerC c₂ = 'd') (t : List Char) :
    scanTok (c :: c₂ :: t) = scanTok (c₂ :: t) :=
  scanTok_cons_none (matchTokAt_fail2 h)

theorem scanMan_step_notS (c : Char) (hc : ¬ lowerC c = 's') (t : List Char) :
    scanMan (c :: t) = scanMan t :=
  scanMan_cons_none (matchManAt_fail_head hc)

/-- `RE_ADDAPPID_TOKEN` does not match at the start of `addappid(APPID)`:
after the digits comes `)`, not the `,` the token form requires. -/
theorem matchTokAt_appidLine_fail {u : List Char} (hu : ∀ c ∈ u, isDig c = true)
    (hne : u ≠ []) (w : List Char) :
    matchTokAt (("addappid(".toList) ++ (u ++ ')' :: w)) = none := by
  unfold matchTokAt
  rw [stripCI_exact (by decide)]
  simp only [Option.bind_eq_bind, Option.some_bind]
  rw [dropWS_digits hu hne]
  unfold takeDigs1
  rw [@takeRun1_run isDig u ')' w hu hne (by decide)]
  simp only [Option.some_bind]
  rw [dropWS_cons_of_neg (by decide), chomp_neg (by decide)]
  rfl

theorem scanTok_skip_appidLine (a : Nat) (rest : List Char) :
    scanTok (appidLine a ++ '\n' :: rest) = scanTok rest := by
  have hdig := natToDec_all_digits a
  have hdne := natToDec_ne_nil a
  have hfail0 : matchTokAt (appidLine a ++ '\n' :: rest) = none := by
    have h0 : appidLine a ++ '\n' :: rest =
        ("addappid(".toList) ++ (natToDec a ++ ')' :: '\n' :: rest) := by
      unfold appidLine
      simp [List.append_assoc]
    rw [h0]
    exact matchTokAt_appidLine_fail hdig hdne ('\n' :: rest)
  have h1 : appidLine a ++ '\n' :: rest =
      'a' :: 'd' :: 'd' :: 'a' :: 'p' :: 'p' :: 'i' :: 'd' :: '(' ::
        (natToDec a ++ ')' :: '\n' :: rest) := by
    unfold appidLine
    rw [show ("addappid(".toList) = ['a','d','d','a','p','p','i','d','('] from by decide]
    simp
  rw [h1] at hfail0 ⊢
  rw [scanTok_cons_none hfail0,
    scanTok_step_notA 'd' (by decide), scanTok_step_notA 'd' (by decide),
    scanTok_step_a_notD 'a' 'p' (by decide),
    scanTok_step_notA 'p' (by decide), scanTok_step_notA 'p' (by decide),
    scanTok_step_notA 'i' (by decide), scanTok_step_notA 'd' (by decide),
    scanTok_step_notA '(' (by decide),
    scanTok_skip_digits hdig,
    scanTok_step_notA ')' (by decide), scanTok_step_notA '\n' (by decide)]

theorem scanTok_skip_manLine (d : Nat) (m : String) (rest : List Char)
    (hdigm : ∀ c ∈ m.data, isDig c = true) :
    scanTok (manLine d m ++ '\n' :: rest) = scanTok rest := by
  have hdig := natToDec_all_digits d
  have h1 : manLine d m ++ '\n' :: rest =
      's' :: 'e' :: 't' :: 'M' :: 'a' :: 'n' :: 'i' :: 'f' :: 'e' :: 's' :: 't'
        :: 'i' :: 'd' :: '(' :: (natToDec d ++ ',' :: '"' ::
          (m.data ++ '"' :: ',' :: '0' :: ')' :: '\n' :: rest)) := by
    unfold manLine
    rw [show ("setManifestid(".toList)
        = ['s','e','t','M','a','n','i','f','e','s','t','i','d','('] from by decide]
    simp
  rw [h1]
  rw [scanTok_step_notA 's' (by decide), scanTok_step_notA 'e' (by decide),
    scanTok_step_notA 't' (by decide), scanTok_step_notA 'M' (by decide),
    scanTok_step_a_notD 'a' 'n' (by decide),
    scanTok_step_notA 'n' (by decide), scanTok_step_notA 'i' (by decide),
    scanTok_step_notA 'f' (by decide), scanTok_step_notA 'e' (by decide),
    scanTok_step_notA 's' (by decide), scanTok_step_notA 't' (by decide),
    scanTok_step_notA 'i' (by decide), scanTok_step_notA 'd' (by decide),
    scanTok_step_notA '(' (by decide),
    scanTok_skip_digits hdig,
    scanTok_step_notA ',' (by decide), scanTok_step_notA '"' (by decide),
    scanTok_skip_digits hdigm,
    scanTok_step_notA '"' (by decide), scanTok_step_notA ',' (by decide),
    scanTok_step_notA '0' (by decide), scanTok_step_notA ')' (by decide),
    scanTok_step_notA '\n' (by decide)]

theorem scanMan_skip_appidLine (a : Nat) (rest : List Char) :
    scanMan (appidLine a ++ '\n' :: rest) = scanMan rest := by
  have hdig := natToDec_all_digits a
  have h1 : appidLine a ++ '\n' :: rest =
      'a' :: 'd' :: 'd' :: 'a' :: 'p' :: 'p' :: 'i' :: 'd' :: '(' ::
        (natToDec a ++ ')' :: '\n' :: rest) := by
    unfold appidLine
    rw [show ("addappid(".toList) = ['a','d','d','a','p','p','i','d','('] from by decide]
    simp
  rw [h1]
  rw [scanMan_step_notS 'a' (by decide), scanMan_step_notS 'd' (by decide),
    scanMan_step_notS 'd' (by decide), scanMan_step_notS 'a' (by decide),
    scanMan_step_notS 'p' (by decide), scanMan_step_notS 'p' (by decide),
    scanMan_step_notS 'i' (by decide), scanMan_step_notS 'd' (by decide),
    scanMan_step_notS '(' (by decide),
    scanMan_skip_digits hdig,
    scanMan_step_notS ')' (by decide), scanMan_step_notS '\n' (by decide)]

theorem scanMan_skip_tokenLine (d : Nat) (t : String) (rest : List Char)
    (hq : ∀ c ∈ t.data, c ≠ '"') :
    scanMan (tokenLine d t ++ '\n' :: rest) = scanMan rest := by
  have hdig := natToDec_all_digits d
  have h1 : tokenLine d t ++ '\n' :: rest =
      'a' :: 'd' :: 'd' :: 'a' :: 'p' :: 'p' :: 'i' :: 'd' :: '(' ::
        (natToDec d ++ ',' :: '1' :: ',' :: '"' ::
          (t.data ++ '"' :: ')' :: '\n' :: rest)) := by
    unfold tokenLine
    rw [show ("addappid(".toList) = ['a','d','d','a','p','p','i','d','('] from by decide]
    simp
  rw [h1]
  rw [scanMan_step_notS 'a' (by decide), scanMan_step_notS 'd' (by decide),
    scanMan_step_notS 'd' (by decide), scanMan_step_notS 'a' (by decide),
    scanMan_step_notS 'p' (by decide), scanMan_step_notS 'p' (by decide),
    scanMan_step_notS 'i' (by decide), scanMan_step_notS 'd' (by decide),
    scanMan_step_notS '(' (by decide),
    scanMan_skip_digits hdig,
    scanMan_step_notS ',' (by decide), scanMan_step_notS '1' (by decide),
    scanMan_step_notS ',' (by decide), scanMan_step_notS '"' (by decide),
    scanMan_skip_quoteFree hq (by decide),
    scanMan_step_notS '"' (by decide), scanMan_step_notS ')' (by decide),
    scanMan_step_notS '\n' (by decide)]

/-! ### Per-line cons lemmas and block lemmas -/

theorem scanTok_tokenLine_cons (d : Nat) (t : String) (rest : List Char)
    (ht : t.data ≠ []) (hq : ∀ c ∈ t.data, notQ c = true) :
    scanTok (tokenLine d t ++ rest) = (d, t) :: scanTok rest := by
  have hm := matchTokAt_tokenLine d t rest ht hq
  have h1 : tokenLine d t ++ rest =
      'a' :: ('d' :: 'd' :: 'a' :: 'p' :: 'p' :: 'i' :: 'd' :: '(' ::
        (natToDec d ++ ',' :: '1' :: ',' :: '"' :: (t.data ++ '"' :: ')' :: rest))) := by
    unfold tokenLine
    rw [show ("addappid(".toList) = ['a','d','d','a','p','p','i','d','('] from by decide]
    simp
  rw [h1] at hm ⊢
  exact scanTok_cons_some hm

theorem scanMan_manLine_cons (d : Nat) (m : String) (rest : List Char)
    (hm : m.data ≠ []) (hdigm : ∀ c ∈ m.data, isDig c = true) :
    scanMan (manLine d m ++ rest) = (d, m) :: scanMan rest := by
  have hmm := matchManAt_manLine d m rest hm hdigm
  have h1 : manLine d m ++ rest =
      's' :: ('e' :: 't' :: 'M' :: 'a' :: 'n' :: 'i' :: 'f' :: 'e' :: 's' :: 't'
        :: 'i' :: 'd' :: '(' :: (natToDec d ++ ',' :: '"' ::
          (m.data ++ '"' :: ',' :: '0' :: ')' :: rest))) := by
    unfold manLine
    rw [show ("setManifestid(".toList)
        = ['s','e','t','M','a','n','i','f','e','s','t','i','d','('] from by decide]
    simp
  rw [h1] at hmm ⊢
  exact scanMan_cons_some hmm

theorem joinLines_cons (l : List Char) (ls : List (List Char)) :
    joinLines (l :: ls) = l ++ '\n' :: joinLines ls := rfl

theorem joinLines_append (l1 l2 : List (List Char)) :
    joinLines (l1 ++ l2) = joinLines l1 ++ joinLines l2 := by
  induction l1 with
  | nil => rfl
  | cons l ls ih => simp [joinLines_cons, ih]

theorem string_data_ne_nil {t : String} (h : t ≠ "") : t.data ≠ [] := by
  intro hd
  apply h
  cases t with
  | mk data =>
    have hdd : data = [] := by simpa using hd
    subst hdd
    rfl

theorem dlookup_mem {κ α : Type} [DecidableEq κ] {l : List (κ × α)} {k : κ}
    {v : α} (h : dlookup k l = some v) : (k, v) ∈ l := by
  unfold dlookup at h
  cases hf : l.find? (fun q => decide (q.1 = k)) with
  | none => rw [hf] at h; cases h
  | some q =>
    rw [hf] at h
    simp only [Option.map_some', Option.some_inj] at h
    have hm := List.mem_of_find?_eq_some hf
    have hk := List.find?_some hf
    simp only [decide_eq_true_eq] at hk
    have : q = (k, v) := by
      cases q
      simp only [Prod.mk.injEq]
      exact ⟨hk, h⟩
    rw [this] at hm
    exact hm

/-- Unpack a truthy token value: it is the dict entry, non-empty. -/
theorem tokenValue_some {tokens : List (Nat × String)} {d : Nat} {t : String}
    (h : tokenValue tokens d = some t) :
    dlookup d tokens = some t ∧ t ≠ "" ∧ (d, t) ∈ tokens := by
  unfold tokenValue at h
  cases hl : dlookup d tokens with
  | none => rw [hl] at h; cases h
  | some t0 =>
    rw [hl] at h
    simp only [Option.some_bind] at h
    split at h
    · cases h
    · next hne =>
      simp only [Option.some_inj] at h
      subst h
      exact ⟨rfl, hne, dlookup_mem hl⟩

/-- Scanning the token block: each serialized token line contributes exactly
its `(depot, token)` pair; the manifest block after it contributes nothing. -/
theorem scanTok_tokenBlock (ds : List Nat) (tokens : List (Nat × String))
    (htok : ∀ p ∈ tokens, ∀ c ∈ p.2.data, c ≠ '"')
    (restM : List Char) (hrest : scanTok restM = []) :
    scanTok (joinLines (tokenLines ds tokens) ++ restM)
      = ds.filterMap (fun d => (tokenValue tokens d).map (fun t => (d, t))) := by
  induction ds with
  | nil => simpa [joinLines] using hrest
  | cons d ds ih =>
    unfold tokenLines
    rw [List.filterMap_cons, List.filterMap_cons]
    cases htv : tokenValue tokens d with
    | none => exact ih
    | some t =>
      obtain ⟨hl, hne, hmem⟩ := tokenValue_some htv
      have hqf : ∀ c ∈ t.data, notQ c = true := by
        intro c hc
        simp only [notQ_eq]
        exact htok (d, t) hmem c hc
      simp only [Option.map_some']
      rw [joinLines_cons, List.append_assoc, List.cons_append]
      rw [scanTok_tokenLine_cons d t _ (string_data_ne_nil hne) hqf]
      rw [scanTok_step_notA '\n' (by decide)]
      exact congrArg (List.cons (d, t)) ih

/-- Scanning the manifest block with the token scanner yields nothing. -/
theorem scanTok_manBlock (ds : List Nat) (manifests : List (Nat × String))
    (hman : ∀ p ∈ manifests, ∀ c ∈ p.2.data, isDig c = true) :
    scanTok (joinLines (manLines ds manifests)) = [] := by
  induction ds with
  | nil => rfl
  | cons d ds ih =>
    unfold manLines
    rw [List.filterMap_cons]
    cases htv : tokenValue manifests d with
    | none => exact ih
    | some m =>
      obtain ⟨hl, hne, hmem⟩ := tokenValue_some htv
      simp only [Option.map_some']
      rw [joinLines_cons]
      rw [scanTok_skip_manLine d m _ (hman (d, m) hmem)]
      exact ih

/-- Scanning the token block with the manifest scanner skips everything. -/
theorem scanMan_tokenBlock (ds : List Nat) (tokens : List (Nat × String))
    (htok : ∀ p ∈ tokens, ∀ c ∈ p.2.data, c ≠ '"') (restM : List Char) :
    scanMan (joinLines (tokenLines ds tokens) ++ restM) = scanMan restM := by
  induction ds with
  | nil => rfl
  | cons d ds ih =>
    unfold tokenLines
    rw [List.filterMap_cons]
    cases htv : tokenValue tokens d with
    | none => exact ih
    | some t =>
      obtain ⟨hl, hne, hmem⟩ := tokenValue_some htv
      simp only [Option.map_some']
      rw [joinLines_cons, List.append_assoc, List.cons_append]
      rw [scanMan_skip_tokenLine d t _ (htok (d, t) hmem)]
      exact ih

/-- Scanning the manifest block: each serialized manifest line contributes
exactly its `(depot, manifest)` pair. -/
theorem scanMan_manBlock (ds : List Nat) (manifests : List (Nat × String))
    (hman : ∀ p ∈ manifests, ∀ c ∈ p.2.data, isDig c = true) :
    scanMan (joinLines (manLines ds manifests))
      = ds.filterMap (fun d => (tokenValue manifests d).map (fun m => (d, m))) := by
  induction ds with
  | nil => rfl
  | cons d ds ih =>
    unfold manLines
    rw [List.filterMap_cons, List.filterMap_cons]
    cases htv : tokenValue manifests d with
    | none => exact ih
    | some m =>
      obtain ⟨hl, hne, hmem⟩ := tokenValue_some htv
      simp only [Option.map_some']
      rw [joinLines_cons]
      rw [scanMan_manLine_cons d m _ (string_data_ne_nil hne) (hman (d, m) hmem)]
      rw [scanMan_step_notS '\n' (by decide)]
      exact congrArg (List.cons (d, m)) ih

/-! ### `sorted(set(...))` -/

theorem mem_insSorted (a k : Nat) (l : List Nat) :
    a ∈ insSorted k l ↔ a = k ∨ a ∈ l := by
  induction l with
  | nil => simp [insSorted]
  | cons x xs ih =>
    unfold insSorted
    split
    · simp
    · split
      · next heq =>
        subst heq
        simp
      · simp [ih]
        tauto

theorem insSorted_pairwise {k : Nat} {l : List Nat} (h : l.Pairwise (· < ·)) :
    (insSorted k l).Pairwise (· < ·) := by
  induction l with
  | nil => simp [insSorted]
  | cons x xs ih =>
    rw [List.pairwise_cons] at h
    obtain ⟨hx, hxs⟩ := h
    unfold insSorted
    split
    · next hlt =>
      rw [List.pairwise_cons]
      refine ⟨?_, List.pairwise_cons.mpr ⟨hx, hxs⟩⟩
      intro b hb
      rcases List.mem_cons.mp hb with rfl | hb
      · exact hlt
      · exact Nat.lt_trans hlt (hx b hb)
    · split
      · exact List.pairwise_cons.mpr ⟨hx, hxs⟩
      · next hnlt hne =>
        rw [List.pairwise_cons]
        refine ⟨?_, ih hxs⟩
        intro b hb
        rcases (mem_insSorted b k xs).mp hb with rfl | hb
        · omega
        · exact hx b hb

theorem mem_foldr_insSorted (L : List Nat) (a : Nat) :
    a ∈ L.foldr insSorted [] ↔ a ∈ L := by
  induction L with
  | nil => simp
  | cons x xs ih => rw [List.foldr_cons, mem_insSorted, ih, List.mem_cons]

theorem foldr_insSorted_pairwise (L : List Nat) :
    (L.foldr insSorted []).Pairwise (· < ·) := by
  induction L with
  | nil => simp
  | cons x xs ih => exact insSorted_pairwise ih

theorem mem_sortedKeys (tokens manifests : List (Nat × String)) (d : Nat) :
    d ∈ sortedKeys tokens manifests ↔
      d ∈ tokens.map Prod.fst ∨ d ∈ manifests.map Prod.fst := by
  unfold sortedKeys
  rw [mem_foldr_insSorted, List.mem_append]

theorem sortedKeys_nodup (tokens manifests : List (Nat × String)) :
    (sortedKeys tokens manifests).Nodup :=
  (foldr_insSorted_pairwise _).imp Nat.ne_of_lt

/-! ### Looking up a depot in the parsed capture list -/

theorem filter_filterMap_key {α : Type} {ds : List Nat} (hnd : ds.Nodup)
    (g : Nat → Option α) (d : Nat) :
    ((ds.filterMap fun k => (g k).map fun v => (k, v)).filter
        fun q => decide (q.1 = d))
      = if d ∈ ds then ((g d).map fun v => (d, v)).toList else [] := by
  induction ds with
  | nil => simp
  | cons k ks ih =>
    rw [List.nodup_cons] at hnd
    obtain ⟨hk, hks⟩ := hnd
    rw [List.filterMap_cons]
    cases hg : g k with
    | none =>
      simp only [Option.map_none']
      by_cases hdk : d = k
      · subst hdk
        rw [ih hks, if_neg hk, if_pos (by simp)]
        simp [hg]
      · rw [ih hks]
        by_cases hdm : d ∈ ks
        · rw [if_pos hdm, if_pos (by simp [hdm])]
        · rw [if_neg hdm, if_neg (by simp [hdm, hdk])]
    | some v =>
      simp only [Option.map_some']
      by_cases hdk : d = k
      · subst hdk
        rw [List.filter_cons_of_pos (by simp), ih hks, if_neg hk, if_pos (by simp)]
        simp [hg]
      · rw [List.filter_cons_of_neg (by simp [Ne.symm hdk]), ih hks]
        by_cases hdm : d ∈ ks
        · rw [if_pos hdm, if_pos (by simp [hdm])]
        · rw [if_neg hdm, if_neg (by simp [hdm, hdk])]

theorem dlookup_eq_none_of_not_mem {κ α : Type} [DecidableEq κ]
    {l : List (κ × α)} {k : κ} (h : ¬ k ∈ l.map Prod.fst) :
    dlookup k l = none := by
  unfold dlookup
  rw [List.find?_eq_none.mpr]
  · rfl
  · intro q hq
    simp only [decide_eq_true_eq]
    intro hqk
    exact h (by rw [List.mem_map]; exact ⟨q, hq, hqk⟩)

/-- The lookup of a depot in the dict built from the serialized-and-rescanned
capture list equals the truthy value from the input dict. -/
theorem dlookup_dictOf_filterMap {ds : List Nat} (hnd : ds.Nodup)
    (g : Nat → Option String) (d : Nat) :
    dlookup d (dictOf (ds.filterMap fun k => (g k).map fun v => (k, v)))
      = if d ∈ ds then g d else none := by
  rw [dlookup_dictOf, filter_filterMap_key hnd g d]
  by_cases hdm : d ∈ ds
  · rw [if_pos hdm, if_pos hdm]
    cases g d <;> simp
  · rw [if_neg hdm, if_neg hdm]
    rfl

/-! ### The serialized text decomposed, and the round trip -/

theorem tokenLine_head (d : Nat) (t : String) : ∃ tl, tokenLine d t = 'a' :: tl := by
  unfold tokenLine
  rw [show ("addappid(".toList) = 'a' :: ("ddappid(".toList) from by decide]
  exact ⟨_, rfl⟩

theorem manLine_head (d : Nat) (m : String) : ∃ tl, manLine d m = 's' :: tl := by
  unfold manLine
  rw [show ("setManifestid(".toList) = 's' :: ("etManifestid(".toList) from by decide]
  exact ⟨_, rfl⟩

theorem joinLines_head {c : Char} {L : List (List Char)}
    (h : ∀ l ∈ L, ∃ tl, l = c :: tl) :
    joinLines L = [] ∨ ∃ tl, joinLines L = c :: tl := by
  cases L with
  | nil => exact Or.inl rfl
  | cons l ls =>
    right
    obtain ⟨tl, htl⟩ := h l (by simp)
    rw [joinLines_cons, htl, List.cons_append]
    exact ⟨_, rfl⟩

/-- The text after the first line of a serialized descriptor is empty or
starts with `a` or `s`; in particular the negative lookahead in
`RE_ADDAPPID_SINGLE` passes. -/
theorem block_lookahead {B : List Char}
    (h : B = [] ∨ (∃ tl, B = 'a' :: tl) ∨ (∃ tl, B = 's' :: tl)) :
    ∀ r, dropWS B ≠ ',' :: r := by
  intro r
  rcases h with rfl | ⟨tl, rfl⟩ | ⟨tl, rfl⟩
  · simp [dropWS]
  · rw [dropWS_cons_of_neg (by decide)]
    simp
  · rw [dropWS_cons_of_neg (by decide)]
    simp

/-- The character list of a serialized descriptor, split into its first line
and the two blocks. -/
theorem build_data_eq (appid : Nat) (tokens manifests : List (Nat × String)) :
    (build_lua_content_multi appid tokens manifests).data
      = appidLine appid ++ '\n' ::
        (joinLines (tokenLines (sortedKeys tokens manifests) tokens) ++
         joinLines (manLines (sortedKeys tokens manifests) manifests)) := by
  unfold build_lua_content_multi
  rw [show ∀ l : List Char, (String.mk l).data = l from fun l => rfl]
  rw [joinLines_cons, joinLines_append]

theorem build_appid (appid : Nat) (tokens manifests : List (Nat × String)) :
    searchSingle (build_lua_content_multi appid tokens manifests).data
      = some appid := by
  rw [build_data_eq]
  set B := joinLines (tokenLines (sortedKeys tokens manifests) tokens) ++
    joinLines (manLines (sortedKeys tokens manifests) manifests) with hB
  have hT : ∀ l ∈ tokenLines (sortedKeys tokens manifests) tokens,
      ∃ tl, l = 'a' :: tl := by
    intro l hl
    unfold tokenLines at hl
    rw [List.mem_filterMap] at hl
    obtain ⟨d, _, hd⟩ := hl
    cases htv : tokenValue tokens d with
    | none => rw [htv] at hd; cases hd
    | some t =>
      rw [htv] at hd
      simp only [Option.map_some', Option.some_inj] at hd
      rw [← hd]
      exact tokenLine_head d t
  have hM : ∀ l ∈ manLines (sortedKeys tokens manifests) manifests,
      ∃ tl, l = 's' :: tl := by
    intro l hl
    unfold manLines at hl
    rw [List.mem_filterMap] at hl
    obtain ⟨d, _, hd⟩ := hl
    cases htv : tokenValue manifests d with
    | none => rw [htv] at hd; cases hd
    | some m =>
      rw [htv] at hd
      simp only [Option.map_some', Option.some_inj] at hd
      rw [← hd]
      exact manLine_head d m
  have hshape : B = [] ∨ (∃ tl, B = 'a' :: tl) ∨ (∃ tl, B = 's' :: tl) := by
    rcases joinLines_head hT with h1 | h1
    · rcases joinLines_head hM with h2 | h2
      · exact Or.inl (by rw [hB, h1, h2]; rfl)
      · obtain ⟨tl, htl⟩ := h2
        exact Or.inr (Or.inr ⟨tl, by rw [hB, h1, htl]; rfl⟩)
    · obtain ⟨tl, htl⟩ := h1
      exact Or.inr (Or.inl ⟨tl ++ _, by rw [hB, htl, List.cons_append]⟩)
  have hm := matchSingleAt_appidLine appid ('\n' :: B) (by
    rw [show dropWS ('\n' :: B) = dropWS B from by
      unfold dropWS
      rw [List.dropWhile_cons, if_pos (by decide)]]
    exact block_lookahead hshape)
  have h1 : appidLine appid ++ '\n' :: B =
      'a' :: ('d' :: 'd' :: 'a' :: 'p' :: 'p' :: 'i' :: 'd' :: '(' ::
        (natToDec appid ++ ')' :: '\n' :: B)) := by
    unfold appidLine
    rw [show ("addappid(".toList) = ['a','d','d','a','p','p','i','d','('] from by decide]
    simp
  rw [h1] at hm ⊢
  exact searchSingle_cons_some hm

theorem build_scanTok (appid : Nat) (tokens manifests : List (Nat × String))
    (htok : ∀ p ∈ tokens, ∀ c ∈ p.2.data, c ≠ '"')
    (hman : ∀ p ∈ manifests, ∀ c ∈ p.2.data, isDig c = true) :
    scanTok (build_lua_content_multi appid tokens manifests).data
      = (sortedKeys tokens manifests).filterMap
          (fun d => (tokenValue tokens d).map fun t => (d, t)) := by
  rw [build_data_eq, scanTok_skip_appidLine]
  exact scanTok_tokenBlock _ tokens htok _ (scanTok_manBlock _ manifests hman)

theorem build_scanMan (appid : Nat) (tokens manifests : List (Nat × String))
    (htok : ∀ p ∈ tokens, ∀ c ∈ p.2.data, c ≠ '"')
    (hman : ∀ p ∈ manifests, ∀ c ∈ p.2.data, isDig c = true) :
    scanMan (build_lua_content_multi appid tokens manifests).data
      = (sortedKeys tokens manifests).filterMap
          (fun d => (tokenValue manifests d).map fun m => (d, m)) := by
  rw [build_data_eq, scanMan_skip_appidLine]
  rw [scanMan_tokenBlock _ tokens htok]
  exact scanMan_manBlock _ manifests hman

/-! ### Claim C1 -/

/-- Claim C1 (amended): for every Descriptor with a non-empty depot map,
non-empty *quote-free* token strings and non-empty numeric manifest-id
strings, parsing the text produced by serialization yields the appid and
token/manifest maps semantically equal to the input maps (pointwise equal
lookups; exact text equality is not required). -/
theorem claim_C1_roundtrip (appid : Nat) (tokens manifests : List (Nat × String))
    (_hdep : tokens ≠ [] ∨ manifests ≠ [])
    (htokne : ∀ p ∈ tokens, p.2 ≠ "")
    (htokq : ∀ p ∈ tokens, ∀ c ∈ p.2.data, c ≠ '"')
    (hmanne : ∀ p ∈ manifests, p.2 ≠ "")
    (hmand : ∀ p ∈ manifests, ∀ c ∈ p.2.data, isDig c = true) :
    (parse_all_from_content (build_lua_content_multi appid tokens manifests)).appid
        = some appid ∧
    (∀ d, dlookup d
        (parse_all_from_content (build_lua_content_multi appid tokens manifests)).tokens
      = dlookup d tokens) ∧
    (∀ d, dlookup d
        (parse_all_from_content (build_lua_content_multi appid tokens manifests)).manifests
      = dlookup d manifests) := by
  refine ⟨build_appid appid tokens manifests, ?_, ?_⟩
  · intro d
    show dlookup d (dictOf (scanTok (build_lua_content_multi appid tokens manifests).data))
      = dlookup d tokens
    rw [build_scanTok appid tokens manifests htokq hmand,
      dlookup_dictOf_filterMap (sortedKeys_nodup tokens manifests)]
    by_cases hdm : d ∈ sortedKeys tokens manifests
    · rw [if_pos hdm]
      unfold tokenValue
      cases hl : dlookup d tokens with
      | none => rfl
      | some t =>
        have hmem := dlookup_mem hl
        rw [Option.some_bind, if_neg (htokne (d, t) hmem)]
    · rw [if_neg hdm, dlookup_eq_none_of_not_mem
        (fun hmemk => hdm ((mem_sortedKeys tokens manifests d).mpr (Or.inl hmemk)))]
  · intro d
    show dlookup d (dictOf (scanMan (build_lua_content_multi appid tokens manifests).data))
      = dlookup d manifests
    rw [build_scanMan appid tokens manifests htokq hmand,
      dlookup_dictOf_filterMap (sortedKeys_nodup tokens manifests)]
    by_cases hdm : d ∈ sortedKeys tokens manifests
    · rw [if_pos hdm]
      unfold tokenValue
      cases hl : dlookup d manifests with
      | none => rfl
      | some m =>
        have hmem := dlookup_mem hl
        rw [Option.some_bind, if_neg (hmanne (d, m) hmem)]
    · rw [if_neg hdm, dlookup_eq_none_of_not_mem
        (fun hmemk => hdm ((mem_sortedKeys tokens manifests d).mpr (Or.inr hmemk)))]

/-- Counterexample to C1 as stated: the claim's well-formedness conditions
(non-empty depot map, non-empty token, numeric manifest ids) admit a token
containing a double quote, and serialization does not escape quotes — so
`addappid(1,1,"a"b")` is emitted and the token capture `"([^"]+)"` cannot
recover the token.  The parsed token map loses the entry entirely. -/
theorem claim_C1_counterexample :
    dlookup 1 (parse_all_from_content
        (build_lua_content_multi 1 [(1, "a\"b")] [])).tokens
      ≠ dlookup 1 [(1, ("a\"b" : String))] := by
  decide

/-- Witness for C1 on the spec's own scenario descriptor. -/
theorem claim_C1_witness :
    (parse_all_from_content
        (build_lua_content_multi 100 [(200, "abc")] [(200, "555")])).appid
      = some 100 ∧
    dlookup 200 (parse_all_from_content
        (build_lua_content_multi 100 [(200, "abc")] [(200, "555")])).tokens
      = some "abc" ∧
    dlookup 200 (parse_all_from_content
        (build_lua_content_multi 100 [(200, "abc")] [(200, "555")])).manifests
      = some "555" := by
  have h := claim_C1_roundtrip 100 [(200, "abc")] [(200, "555")]
    (Or.inl (by simp)) (by decide) (by decide) (by decide) (by decide)
  exact ⟨h.1, by rw [h.2.1 200]; decide, by rw [h.2.2 200]; decide⟩

/-! ### `update_lua_manifest`: the two substitution patterns

The source tries, in order:
`(?im)^(\s*setManifestid\(\s*{depot}\s*,\s*")(\d+)(".*\)\s*)$` over all line
starts, and on zero matches the looser
`(setManifestid\(\s*{depot}\s*,\s*")(\d+)(".*\))` on the first occurrence
only.  Both replace with `group(1) + new_manifest + '",0)'`.  Finally the
rewritten text is checked with
`setManifestid\(\s*{depot}\s*,\s*"{new}"\s*,\s*0\s*\)`. -/

/-- The shared prefix `setManifestid\(\s*{depot}\s*,\s*"(\d+)"` tried at the
head of `s`.  Returns the captured group-1 text (everything through the
opening quote, verbatim), the old manifest digits, and the rest after the
closing quote. -/
def coreAt (depot : Nat) (s : List Char) : Option (List Char × List Char × List Char) := do
  let s1 ← stripCI ("setmanifestid(".toList) s
  let s3 ← stripCS (natToDec depot) (dropWS s1)
  let s5 ← chomp ',' (dropWS s3)
  let s7 ← chomp '"' (dropWS s5)
  let (old, s8) ← takeDigs1 s7
  let s9 ← chomp '"' s8
  return (s.take (s.length - s7.length), old, s9)

/-- The loose tail `.*\)`: `.` cannot cross a newline and `.*` is greedy, so
the match extends to the last `)` of the current line; it fails when the
line has no further `)`. -/
def looseTail (s9 : List Char) : Option (List Char) :=
  let line := s9.takeWhile (fun c => c != '\n')
  let lineRest := s9.drop line.length
  let afterParen := line.reverse.takeWhile (fun c => c != ')')
  if afterParen.length = line.length then none
  else some (afterParen.reverse ++ lineRest)

/-- The anchored tail `.*\)\s*$` in MULTILINE mode: the `)` must be the
line's last `)` with only whitespace after it on the line; the trailing
`\s*` then greedily consumes whitespace (across newlines) up to end of
string, or up to (not including) the last newline of the whitespace run. -/
def anchTail (s9 : List Char) : Option (List Char) :=
  let line := s9.takeWhile (fun c => c != '\n')
  let lineRest := s9.drop line.length
  let rl := line.reverse
  let wsfx := rl.takeWhile isWS
  match rl.drop wsfx.length with
  | [] => none
  | c :: _ =>
    if c = ')' then
      let afterParen := wsfx.reverse ++ lineRest
      let W := afterParen.takeWhile isWS
      let R := afterParen.drop W.length
      if R.isEmpty then some []
      else
        let tailNoNl := W.reverse.takeWhile (fun c => c != '\n')
        if tailNoNl.length = W.length then none
        else some ('\n' :: (tailNoNl.reverse ++ R))
    else none

/-- The loose pattern tried at the head of `s`: group 1 and the rest after
the full match. -/
def matchLooseAt (depot : Nat) (s : List Char) : Option (List Char × List Char) := do
  let (g1, _old, s9) ← coreAt depot s
  let rest ← looseTail s9
  return (g1, rest)

/-- The anchored pattern tried at the head of `s` (which the caller ensures
is a line start): leading `\s*` absorbed into group 1, then the core, then
the anchored tail. -/
def matchAnchAt (depot : Nat) (s : List Char) : Option (List Char × List Char) := do
  let w := s.takeWhile isWS
  let (g1, _old, s9) ← coreAt depot (s.drop w.length)
  let rest ← anchTail s9
  return (w ++ g1, rest)

/-- The replacement `group(1) + new + '",0)'`. -/
def updRepl (g1 newM : List Char) : List Char := g1 ++ newM ++ ['"', ',', '0', ')']

/-- `pattern.subn(repl, text)` for the anchored pattern: scan left to right,
try the pattern at every line start, replace every match, resume after each
match.  `atLS` records whether the current position follows a newline (or is
position 0). -/
def subnAnchF (depot : Nat) (newM : List Char) : Nat → Bool → List Char → List Char × Nat
  | 0, _, s => (s, 0)
  | _ + 1, _, [] => ([], 0)
  | fuel + 1, atLS, c :: t =>
    match (if atLS then matchAnchAt depot (c :: t) else none) with
    | some (g1, rest) =>
      let consumed := (c :: t).take ((c :: t).length - rest.length)
      let res := subnAnchF depot newM fuel (consumed.getLast? == some '\n') rest
      (updRepl g1 newM ++ res.1, res.2 + 1)
    | none =>
      let res := subnAnchF depot newM fuel (c == '\n') t
      (c :: res.1, res.2)

def subnAnch (depot : Nat) (newM : List Char) (s : List Char) : List Char × Nat :=
  subnAnchF depot newM s.length true s

/-- `pattern2.subn(repl, text, count=1)`: replace the first loose match
only; `none` when there is no match. -/
def subnLooseF (depot : Nat) (newM : List Char) : List Char → Option (List Char)
  | [] => none
  | c :: t =>
    match matchLooseAt depot (c :: t) with
    | some (g1, rest) => some (updRepl g1 newM ++ rest)
    | none => (subnLooseF depot newM t).map (fun out => c :: out)

/-- `re.search` for the loose pattern — "a manifest marker for this depot
occurs somewhere in the text". -/
def searchLoose (depot : Nat) : List Char → Bool
  | [] => false
  | c :: t => (matchLooseAt depot (c :: t)).isSome || searchLoose depot t

def hasManifestMarker (depot : Nat) (text : String) : Bool :=
  searchLoose depot text.data

/-- The final verification search
`setManifestid\(\s*{depot}\s*,\s*"{new}"\s*,\s*0\s*\)` (IGNORECASE, `new`
escaped hence literal). -/
def matchCheckAt (depot : Nat) (newM : List Char) (s : List Char) : Option Unit := do
  let s1 ← stripCI ("setmanifestid(".toList) s
  let s3 ← stripCS (natToDec depot) (dropWS s1)
  let s5 ← chomp ',' (dropWS s3)
  let s7 ← chomp '"' (dropWS s5)
  let s8 ← stripCI (newM.map lowerC) s7
  let s9 ← chomp '"' s8
  let s10 ← chomp ',' (dropWS s9)
  let s11 ← chomp '0' (dropWS s10)
  let _ ← chomp ')' (dropWS s11)
  return ()

def searchCheck (depot : Nat) (newM : List Char) : List Char → Bool
  | [] => false
  | c :: t => (matchCheckAt depot newM (c :: t)).isSome || searchCheck depot newM t

/-- What `update_lua_manifest` writes to the file, if anything: the anchored
substitution when it matched at least once, else the first-occurrence loose
substitution, else nothing. -/
def update_write (text : String) (depot : Nat) (newM : String) : Option String :=
  let r1 := subnAnch depot newM.data text.data
  if r1.2 > 0 then some (String.mk r1.1)
  else (subnLooseF depot newM.data text.data).map String.mk

/-- The boolean result of `update_lua_manifest`: `False` when no pattern
matched (nothing written), otherwise the result of the verification search
on the written text. -/
def update_lua_manifest (text : String) (depot : Nat) (newM : String) : Bool :=
  match update_write text depot newM with
  | none => false
  | some t => searchCheck depot newM.data t.data

example : update_write ("setManifestid(5,\"1\")\n\nx") 5 ("2")
    = some ("setManifestid(5,\"2\",0)\nx") := by decide

example : update_write ("x setManifestid(7,\"3\") y") 7 ("9")
    = some ("x setManifestid(7,\"9\",0) y") := by decide

example : update_write ("addappid(1)\nsetManifestid(50,\"1\",0)\n") 5 ("9") = none := by
  decide

example : update_write ("setManifestid(5,\"1\", 0 , \"z\")\n") 5 ("2")
    = some ("setManifestid(5,\"2\",0)") := by decide

example : update_lua_manifest ("addappid(9)\nsetManifestid(5,\"1\",0)\n") 5 ("234")
    = true := by decide

example : update_write ("setManifestid(5,\"1\")  \nnext") 5 ("2")
    = some ("setManifestid(5,\"2\",0)\nnext") := by decide

example : update_write ("  setManifestid( 5 , \"7\" )\nrest\n") 5 ("2")
    = some ("  setManifestid( 5 , \"2\",0)\nrest\n") := by decide

/-! ### Structural facts about the matchers -/

theorem stripCI_suffix {p s r : List Char} (h : stripCI p s = some r) : r <:+ s := by
  induction p generalizing s with
  | nil => simp only [stripCI, Option.some_inj] at h; exact h ▸ List.suffix_refl r
  | cons q ps ih =>
    cases s with
    | nil => cases h
    | cons c cs =>
      unfold stripCI at h
      split at h
      · exact (ih h).trans (List.suffix_cons c cs)
      · cases h

theorem stripCS_suffix {p s r : List Char} (h : stripCS p s = some r) : r <:+ s := by
  induction p generalizing s with
  | nil => simp only [stripCS, Option.some_inj] at h; exact h ▸ List.suffix_refl r
  | cons q ps ih =>
    cases s with
    | nil => cases h
    | cons c cs =>
      unfold stripCS at h
      split at h
      · exact (ih h).trans (List.suffix_cons c cs)
      · cases h

theorem chomp_suffix {c : Char} {s r : List Char} (h : chomp c s = some r) : r <:+ s := by
  cases s with
  | nil => simp [chomp] at h
  | cons x xs =>
    simp only [chomp] at h
    split at h
    · cases h
      exact List.suffix_cons _ _
    · cases h

theorem dropWhile_suffix_self (p : Char → Bool) (l : List Char) :
    l.dropWhile p <:+ l := by
  induction l with
  | nil => exact List.suffix_refl []
  | cons c cs ih =>
    rw [List.dropWhile_cons]
    split
    · exact ih.trans (List.suffix_cons c cs)
    · exact List.suffix_refl _

theorem takeDigs1_suffix {s ds r : List Char} (h : takeDigs1 s = some (ds, r)) :
    r <:+ s := by
  unfold takeDigs1 takeRun1 at h
  split at h
  · cases h
  · simp only [Option.some_inj, Prod.mk.injEq] at h
    exact h.2 ▸ dropWhile_suffix_self isDig s

theorem dropWhile_head_not {p : Char → Bool} {l : List Char} {c : Char}
    {r : List Char} (h : l.dropWhile p = c :: r) : p c = false := by
  induction l with
  | nil => cases h
  | cons x xs ih =>
    rw [List.dropWhile_cons] at h
    split at h
    · exact ih h
    · next hx =>
      cases h
      simpa using hx

theorem takeWhile_length_lt_of_mem {p : Char → Bool} {l : List Char} {x : Char}
    (hx : x ∈ l) (hpx : p x = false) : (l.takeWhile p).length < l.length := by
  induction l with
  | nil => cases hx
  | cons c cs ih =>
    rw [List.takeWhile_cons]
    by_cases hc : p c = true
    · rw [if_pos hc]
      rcases List.mem_cons.mp hx with rfl | hx2

      · rw [hc] at hpx; cases hpx
      · simpa using ih hx2
    · rw [if_neg hc]
      simp

theorem prefix_reverse_suffix {p l : List Char} (h : p <+: l.reverse) :
    p.reverse <:+ l := by
  obtain ⟨t, ht⟩ := h
  refine ⟨t.reverse, ?_⟩
  have : l.reverse.reverse = (p ++ t).reverse := by rw [ht]
  rw [List.reverse_reverse, List.reverse_append] at this
  exact this.symm

theorem suffix_append_of_suffix {r l t : List Char} (h : r <:+ l) :
    r ++ t <:+ l ++ t := by
  obtain ⟨w, hw⟩ := h
  exact ⟨w, by rw [← hw, List.append_assoc]⟩

theorem drop_takeWhile_length (p : Char → Bool) (l : List Char) :
    l.drop (l.takeWhile p).length = l.dropWhile p := by
  induction l with
  | nil => rfl
  | cons c cs ih =>
    rw [List.takeWhile_cons, List.dropWhile_cons]
    split
    · simpa using ih
    · simp

theorem takeWhile_append_drop (p : Char → Bool) (l : List Char) :
    l.takeWhile p ++ l.drop (l.takeWhile p).length = l := by
  rw [drop_takeWhile_length]
  exact List.takeWhile_append_dropWhile p l

/-- A prefix and a suffix that do not overlap decompose the list. -/
theorem prefix_suffix_mid {p r u : List Char} (hp : p <+: u) (hr : r <:+ u)
    (hlen : p.length + r.length ≤ u.length) : ∃ mid, u = p ++ mid ++ r := by
  obtain ⟨t, ht⟩ := hp
  obtain ⟨w, hw⟩ := hr
  have hrt : r <:+ t := by
    have h1 : u.drop w.length = r := by rw [← hw, List.drop_left]
    have h2 : u.drop p.length = t := by rw [← ht, List.drop_left]
    have hwlen : w.length = u.length - r.length := by
      have : w.length + r.length = u.length := by rw [← hw, List.length_append]
      omega
    have hge : p.length ≤ w.length := by
      have htlen : p.length + t.length = u.length := by rw [← ht, List.length_append]
      omega
    have : u.drop w.length = (u.drop p.length).drop (w.length - p.length) := by
      rw [List.drop_drop]
      congr 1
      omega
    rw [h1, h2] at this
    exact this ▸ List.drop_suffix _ t
  obtain ⟨mid, hmid⟩ := hrt
  exact ⟨mid, by rw [← ht, ← hmid, List.append_assoc]⟩

theorem coreAt_parts {depot : Nat} {u g1 old s9 : List Char}
    (h : coreAt depot u = some (g1, old, s9)) :
    g1 <+: u ∧ s9 <:+ u ∧ g1.length + s9.length ≤ u.length ∧
      s9.length < u.length := by
  unfold coreAt at h
  simp only [Option.bind_eq_bind, Option.bind_eq_some] at h
  obtain ⟨s1, h1, h⟩ := h
  obtain ⟨s3, h3, h⟩ := h
  obtain ⟨s5, h5, h⟩ := h
  obtain ⟨s7, h7, h⟩ := h
  obtain ⟨⟨od, s8⟩, h8, h⟩ := h
  obtain ⟨s9x, h9, h⟩ := h
  simp only [Option.pure_def, Option.some_inj, Prod.mk.injEq] at h
  have hg1 : u.take (u.length - s7.length) = g1 := h.1
  have hold : od = old := h.2.1
  have hs9e : s9x = s9 := h.2.2
  subst hg1
  subst hold
  subst hs9e
  have suf9 : s9x <:+ s7 :=
    ((chomp_suffix h9).trans (takeDigs1_suffix h8))
  have suf7 : s7 <:+ u :=
    ((((((chomp_suffix h7).trans (dropWhile_suffix_self isWS s5)).trans
      (chomp_suffix h5)).trans (dropWhile_suffix_self isWS s3)).trans
      (stripCS_suffix h3)).trans (dropWhile_suffix_self isWS s1)).trans
      (stripCI_suffix h1)
  refine ⟨List.take_prefix _ u, suf9.trans suf7, ?_, ?_⟩
  · have l1 := List.length_take (u.length - s7.length) u
    have l2 := suf9.length_le
    have l3 := suf7.length_le
    simp only [l1]
    omega
  · have l2 := suf9.length_le
    have lsuf1 : s7.length ≤ s1.length :=
      ((((chomp_suffix h7).trans (dropWhile_suffix_self isWS s5)).trans
        (chomp_suffix h5)).trans (dropWhile_suffix_self isWS s3)).trans
        ((stripCS_suffix h3).trans (dropWhile_suffix_self isWS s1)) |>.length_le
    have hlit := stripCI_length h1
    have : ("setmanifestid(".toList).length = 14 := by decide
    omega

theorem looseTail_parts {s9 rest : List Char} (h : looseTail s9 = some rest) :
    rest <:+ s9 := by
  unfold looseTail at h
  dsimp only at h
  split at h
  · cases h
  · simp only [Option.some_inj] at h
    subst h
    have h1 : ((s9.takeWhile (fun c => c != '\n')).reverse.takeWhile
        (fun c => c != ')')).reverse <:+ s9.takeWhile (fun c => c != '\n') :=
      prefix_reverse_suffix (List.takeWhile_prefix _)
    have h2 := @suffix_append_of_suffix _ _
      (s9.drop (s9.takeWhile (fun c => c != '\n')).length) h1
    rw [takeWhile_append_drop] at h2
    exact h2

theorem anchTail_parts {s9 rest : List Char} (h : anchTail s9 = some rest) :
    rest <:+ s9 := by
  unfold anchTail at h
  dsimp only at h
  split at h
  · cases h
  · next c rest2 heq =>
    split at h
    · split at h
      · simp only [Option.some_inj] at h
        subst h
        exact List.nil_suffix
      · split at h
        · cases h
        · next hne =>
          simp only [Option.some_inj] at h
          subst h
          -- abbreviations matching the definition
          set line := s9.takeWhile (fun c => c != '\n') with hline
          set lineRest := s9.drop line.length with hlineRest
          set wsfx := line.reverse.takeWhile isWS with hwsfx
          set afterParen := wsfx.reverse ++ lineRest with hafterParen
          set W := afterParen.takeWhile isWS with hW
          set R := afterParen.drop W.length with hR
          set tailNoNl := W.reverse.takeWhile (fun c => c != '\n') with htailNoNl
          -- afterParen is a suffix of s9
          have hap : afterParen <:+ s9 := by
            have h1 : wsfx.reverse <:+ line :=
              prefix_reverse_suffix (List.takeWhile_prefix _)
            have h2 := @suffix_append_of_suffix _ _ lineRest h1
            rw [hafterParen]
            rw [hlineRest, hline] at h2 ⊢
            rw [takeWhile_append_drop] at h2
            exact h2
          -- W.reverse splits as tailNoNl ++ ('\n' :: δ)
          have hWsplit : tailNoNl ++ W.reverse.drop tailNoNl.length = W.reverse := by
            rw [htailNoNl]
            exact takeWhile_append_drop _ _
          have hdropW : W.reverse.drop tailNoNl.length
              = W.reverse.dropWhile (fun c => c != '\n') := by
            rw [htailNoNl]
            exact drop_takeWhile_length _ _
          have hd_ne : W.reverse.drop tailNoNl.length ≠ [] := by
            intro hnil
            apply hne
            have := congrArg List.length hWsplit
            rw [hnil] at this
            simp at this
            simpa using this
          obtain ⟨c1, δ, hcδ⟩ : ∃ c1 δ, W.reverse.drop tailNoNl.length = c1 :: δ := by
            cases hd : W.reverse.drop tailNoNl.length with
            | nil => exact absurd hd hd_ne
            | cons a b => exact ⟨a, b, rfl⟩
          have hc1 : c1 = '\n' := by
            have := dropWhile_head_not (by rw [← hdropW, hcδ])
            simpa using this
          subst hc1
          -- hence W ends with '\n' :: tailNoNl.reverse
          have hWform : W = δ.reverse ++ '\n' :: tailNoNl.reverse := by
            have : W.reverse = tailNoNl ++ '\n' :: δ := by rw [← hcδ, hWsplit]
            have h2 := congrArg List.reverse this
            rw [List.reverse_reverse] at h2
            rw [h2]
            simp
          -- the remainder is a suffix of afterParen, hence of s9
          have hWR : W ++ R = afterParen := by
            rw [hW, hR]
            exact takeWhile_append_drop _ _
          have : '\n' :: (tailNoNl.reverse ++ R) <:+ afterParen := by
            rw [← hWR, hWform]
            exact ⟨δ.reverse, by simp⟩
          exact this.trans hap
    · cases h

theorem matchLooseAt_parts {depot : Nat} {u g1 rest : List Char}
    (h : matchLooseAt depot u = some (g1, rest)) :
    (∃ mid, u = g1 ++ mid ++ rest) ∧ rest.length < u.length := by
  unfold matchLooseAt at h
  simp only [Option.bind_eq_bind, Option.bind_eq_some] at h
  obtain ⟨⟨g1x, old, s9⟩, hcore, h⟩ := h
  obtain ⟨restx, htail, h⟩ := h
  simp only [Option.pure_def, Option.some_inj, Prod.mk.injEq] at h
  obtain ⟨hg, hr⟩ := h
  rw [← hg, ← hr]
  obtain ⟨hpre, hsuf, hlen, hlt⟩ := coreAt_parts hcore
  have hrt := looseTail_parts htail
  have hrl := hrt.length_le
  dsimp only at hpre hsuf hlen hlt hrt hrl
  refine ⟨prefix_suffix_mid hpre (hrt.trans hsuf) (by omega), by omega⟩

theorem matchAnchAt_parts {depot : Nat} {u g1 rest : List Char}
    (h : matchAnchAt depot u = some (g1, rest)) :
    (∃ mid, u = g1 ++ mid ++ rest) ∧ rest.length < u.length := by
  unfold matchAnchAt at h
  simp only [Option.bind_eq_bind, Option.bind_eq_some] at h
  obtain ⟨⟨g1x, old, s9⟩, hcore, h⟩ := h
  obtain ⟨restx, htail, h⟩ := h
  simp only [Option.pure_def, Option.some_inj, Prod.mk.injEq] at h
  obtain ⟨hg, hr⟩ := h
  rw [← hg, ← hr]
  obtain ⟨hpre, hsuf, hlen, hlt⟩ := coreAt_parts hcore
  have hrt := anchTail_parts htail
  have hrl := hrt.length_le
  dsimp only at hpre hsuf hlen hlt hrt hrl
  have hu : u.takeWhile isWS ++ u.drop (u.takeWhile isWS).length = u :=
    takeWhile_append_drop isWS u
  have hpre2 : (u.takeWhile isWS ++ g1x) <+: u := by
    obtain ⟨t2, ht2⟩ := hpre
    exact ⟨t2, by rw [List.append_assoc, ht2, hu]⟩
  have hsuf2 : restx <:+ u := (hrt.trans hsuf).trans (List.drop_suffix _ _)
  have hlen2 : (u.takeWhile isWS ++ g1x).length + restx.length ≤ u.length := by
    have h1 := congrArg List.length hu
    simp only [List.length_append] at h1 ⊢
    have h2 := hsuf.length_le
    omega
  have hltu : restx.length < u.length := by
    have h1 := congrArg List.length hu
    have h3 : (u.drop (u.takeWhile isWS).length).length ≤ u.length :=
      (List.drop_suffix _ _).length_le
    simp only [List.length_append] at h1
    omega
  exact ⟨prefix_suffix_mid hpre2 hsuf2 hlen2, hltu⟩

theorem matchAnchAt_length {depot : Nat} {u : List Char} {pr : List Char × List Char}
    (h : matchAnchAt depot u = some pr) : pr.2.length < u.length := by
  obtain ⟨g1, rest⟩ := pr
  exact (matchAnchAt_parts h).2

/-! ### The two substitution scanners, characterized -/

theorem subnAnchF_zero_id {depot : Nat} {newM : List Char} :
    ∀ {fuel : Nat} {atLS : Bool} {s : List Char},
      (subnAnchF depot newM fuel atLS s).2 = 0 →
      (subnAnchF depot newM fuel atLS s).1 = s
  | 0, _, _, _ => rfl
  | _ + 1, _, [], _ => rfl
  | fuel + 1, atLS, c :: t, h => by
    cases hm : (if atLS then matchAnchAt depot (c :: t) else none) with
    | some pr =>
      obtain ⟨g1, rest⟩ := pr
      simp only [subnAnchF, hm] at h
      omega
    | none =>
      simp only [subnAnchF, hm] at h ⊢
      rw [subnAnchF_zero_id h]

theorem subnAnchF_pos_suffix {depot : Nat} {newM : List Char} :
    ∀ {fuel : Nat} {atLS : Bool} {s : List Char},
      0 < (subnAnchF depot newM fuel atLS s).2 →
      ∃ u, u <:+ s ∧ (matchAnchAt depot u).isSome
  | 0, _, s, h => by simp [subnAnchF] at h
  | _ + 1, _, [], h => by simp [subnAnchF] at h
  | fuel + 1, atLS, c :: t, h => by
    cases hm : (if atLS then matchAnchAt depot (c :: t) else none) with
    | some pr =>
      have hmm : matchAnchAt depot (c :: t) = some pr := by
        cases atLS
        · simp at hm
        · simpa using hm
      exact ⟨c :: t, List.suffix_refl _, by rw [hmm]; rfl⟩
    | none =>
      simp only [subnAnchF, hm] at h
      obtain ⟨u, hu, hmm⟩ := subnAnchF_pos_suffix h
      exact ⟨u, hu.trans (List.suffix_cons c t), hmm⟩

theorem subnAnchF_one_decomp {depot : Nat} {newM : List Char} :
    ∀ {fuel : Nat} {atLS : Bool} {s : List Char},
      (subnAnchF depot newM fuel atLS s).2 = 1 →
      ∃ pre u g1 rest, s = pre ++ u ∧ matchAnchAt depot u = some (g1, rest) ∧
        (subnAnchF depot newM fuel atLS s).1 = pre ++ updRepl g1 newM ++ rest
  | 0, _, s, h => by simp [subnAnchF] at h
  | _ + 1, _, [], h => by simp [subnAnchF] at h
  | fuel + 1, atLS, c :: t, h => by
    cases hm : (if atLS then matchAnchAt depot (c :: t) else none) with
    | some pr =>
      obtain ⟨g1, rest⟩ := pr
      have hmm : matchAnchAt depot (c :: t) = some (g1, rest) := by
        cases atLS
        · simp at hm
        · simpa using hm
      simp only [subnAnchF, hm] at h ⊢
      have h0 : (subnAnchF depot newM fuel
          (((c :: t).take ((c :: t).length - rest.length)).getLast? == some '\n')
          rest).2 = 0 := by omega
      refine ⟨[], c :: t, g1, rest, by simp, hmm, ?_⟩
      rw [subnAnchF_zero_id h0]
      simp
    | none =>
      simp only [subnAnchF, hm] at h ⊢
      obtain ⟨pre, u, g1, rest, hs, hmm, hout⟩ := subnAnchF_one_decomp h
      refine ⟨c :: pre, u, g1, rest, by rw [List.cons_append, ← hs], hmm, ?_⟩
      rw [hout]
      simp

theorem subnLooseF_isSome (depot : Nat) (newM : List Char) :
    ∀ s : List Char, (subnLooseF depot newM s).isSome = searchLoose depot s
  | [] => rfl
  | c :: t => by
    cases hm : matchLooseAt depot (c :: t) with
    | some pr =>
      obtain ⟨g1, rest⟩ := pr
      simp [subnLooseF, searchLoose, hm]
    | none =>
      simp [subnLooseF, searchLoose, hm, subnLooseF_isSome depot newM t]

theorem subnLooseF_decomp {depot : Nat} {newM : List Char} :
    ∀ {s out : List Char}, subnLooseF depot newM s = some out →
      ∃ pre u g1 rest, s = pre ++ u ∧ matchLooseAt depot u = some (g1, rest) ∧
        out = pre ++ updRepl g1 newM ++ rest ∧
        ∀ v, v <:+ s → u.length < v.length → matchLooseAt depot v = none
  | [], out, h => by cases h
  | c :: t, out, h => by
    cases hm : matchLooseAt depot (c :: t) with
    | some pr =>
      obtain ⟨g1, rest⟩ := pr
      simp only [subnLooseF, hm, Option.some_inj] at h
      refine ⟨[], c :: t, g1, rest, by simp, hm, by rw [← h]; simp, ?_⟩
      intro v hv hlen
      exact absurd hv.length_le (by omega)
    | none =>
      simp only [subnLooseF, hm] at h
      cases hs : subnLooseF depot newM t with
      | none => rw [hs] at h; cases h
      | some outx =>
        rw [hs] at h
        simp only [Option.map_some', Option.some_inj] at h
        obtain ⟨pre, u, g1, rest, hsplit, hmm, hout, hfirst⟩ := subnLooseF_decomp hs
        refine ⟨c :: pre, u, g1, rest, by rw [List.cons_append, ← hsplit], hmm, ?_, ?_⟩
        · rw [← h, hout]
          simp
        · intro v hv hlen
          rcases List.suffix_cons_iff.mp hv with rfl | hv2
          · exact hm
          · exact hfirst v hv2 hlen

theorem matchLooseAt_nil (depot : Nat) : matchLooseAt depot [] = none := rfl

theorem searchLoose_of_suffix {depot : Nat} {u s : List Char} (hsuf : u <:+ s)
    (h : (matchLooseAt depot u).isSome = true) : searchLoose depot s = true := by
  induction s with
  | nil =>
    rw [List.suffix_nil.mp hsuf, matchLooseAt_nil] at h
    cases h
  | cons c t ih =>
    rcases List.suffix_cons_iff.mp hsuf with rfl | hv
    · unfold searchLoose
      rw [h]
      rfl
    · unfold searchLoose
      rw [ih hv]
      simp

/-- An anchored match implies a loose match at the position after the
leading whitespace: the anchored tail requires the line's last `)` to exist,
which is all the loose tail needs. -/
theorem matchAnchAt_implies_loose {depot : Nat} {u : List Char}
    {pr : List Char × List Char} (h : matchAnchAt depot u = some pr) :
    ∃ v, v <:+ u ∧ (matchLooseAt depot v).isSome = true := by
  unfold matchAnchAt at h
  simp only [Option.bind_eq_bind, Option.bind_eq_some] at h
  obtain ⟨⟨g1x, old, s9⟩, hcore, h⟩ := h
  obtain ⟨restx, htail, h2⟩ := h
  refine ⟨u.drop (u.takeWhile isWS).length, List.drop_suffix _ _, ?_⟩
  unfold matchLooseAt
  rw [hcore]
  simp only [Option.bind_eq_bind, Option.some_bind]
  have hlt : ∃ r, looseTail s9 = some r := by
    unfold anchTail at htail
    dsimp only at htail
    split at htail
    · cases htail
    · next c tail2 heq =>
      split at htail
      · next hc =>
        subst hc
        have hmem : ')' ∈ (s9.takeWhile (fun c => c != '\n')).reverse := by
          have : ')' ∈ ')' :: tail2 := by simp
          rw [← heq] at this
          exact List.drop_subset _ _ this
        unfold looseTail
        dsimp only
        have hl := @takeWhile_length_lt_of_mem (fun c => c != ')')
          ((s9.takeWhile (fun c => c != '\n')).reverse) ')' hmem (by decide)
        rw [List.length_reverse] at hl
        rw [if_neg (by omega)]
        exact ⟨_, rfl⟩
      · cases htail
  obtain ⟨r, hr⟩ := hlt
  rw [hr]
  rfl

theorem subnAnch_pos_searchLoose {depot : Nat} {newM : List Char} {s : List Char}
    (h : 0 < (subnAnch depot newM s).2) : searchLoose depot s = true := by
  obtain ⟨u, hu, hmm⟩ := subnAnchF_pos_suffix h
  cases hm : matchAnchAt depot u with
  | none => rw [hm] at hmm; cases hmm
  | some pr =>
    obtain ⟨v, hv, hvl⟩ := matchAnchAt_implies_loose hm
    exact searchLoose_of_suffix (hv.trans hu) hvl

/-! ### Claim C3 -/

/-- Claim C3 (confirmed): for every text and depot such that no manifest
marker for that depot occurs in the text (no match of the loose pattern,
which the anchored pattern refines), `update_lua_manifest` performs no
substitution — nothing is written back, so the file content is left
unmodified — and returns failure. -/
theorem claim_C3_no_marker_no_update (text : String) (depot : Nat) (newM : String)
    (h : hasManifestMarker depot text = false) :
    update_write text depot newM = none ∧
    update_lua_manifest text depot newM = false := by
  have hloose : subnLooseF depot newM.data text.data = none := by
    cases hs : subnLooseF depot newM.data text.data with
    | none => rfl
    | some out =>
      have := subnLooseF_isSome depot newM.data text.data
      rw [hs] at this
      unfold hasManifestMarker at h
      rw [h] at this
      cases this
  have hanch : (subnAnch depot newM.data text.data).2 = 0 := by
    by_contra hpos
    have := subnAnch_pos_searchLoose (Nat.pos_of_ne_zero hpos)
    unfold hasManifestMarker at h
    rw [h] at this
    cases this
  have hw : update_write text depot newM = none := by
    unfold update_write
    rw [if_neg (by omega), hloose]
    rfl
  refine ⟨hw, ?_⟩
  unfold update_lua_manifest
  rw [hw]

/-- Witness for C3 at a concrete text: markers for depots 50 and 7 are
present but none for depot 5. -/
theorem claim_C3_witness :
    hasManifestMarker 5 ("addappid(1)\nsetManifestid(50,\"1\",0)\nsetManifestid(7,\"2\")\n")
      = false ∧
    update_write ("addappid(1)\nsetManifestid(50,\"1\",0)\nsetManifestid(7,\"2\")\n") 5 ("9")
      = none ∧
    update_lua_manifest ("addappid(1)\nsetManifestid(50,\"1\",0)\nsetManifestid(7,\"2\")\n") 5 ("9")
      = false := by
  have h := claim_C3_no_marker_no_update
    ("addappid(1)\nsetManifestid(50,\"1\",0)\nsetManifestid(7,\"2\")\n") 5 ("9")
    (by decide)
  exact ⟨by decide, h.1, h.2⟩

/-! ### Claim C4 -/

/-- Claim C4 (amended): the in-place updater first tries the line-anchored
pattern and uses its substitution whenever it matched at least once; only on
zero anchored matches does it fall back to the looser in-text pattern,
replacing the first occurrence only.  The replaced occurrence always becomes
`<prefix through the opening quote><new id>",0)` — everything from the old
manifest id through the matched closing parenthesis (and, in the anchored
case, trailing whitespace up to the line end, possibly including following
blank lines or a final newline) is rewritten — and the text outside the
replaced occurrence is unchanged. -/
theorem claim_C4_update_order_and_shape (text : String) (depot : Nat)
    (newM : String) :
    (0 < (subnAnch depot newM.data text.data).2 →
      update_write text depot newM
        = some (String.mk (subnAnch depot newM.data text.data).1)) ∧
    ((subnAnch depot newM.data text.data).2 = 0 →
      update_write text depot newM
        = (subnLooseF depot newM.data text.data).map String.mk) ∧
    (∀ out, subnLooseF depot newM.data text.data = some out →
      ∃ pre u g1 mid rest, text.data = pre ++ u ∧ u = g1 ++ mid ++ rest ∧
        out = pre ++ updRepl g1 newM.data ++ rest ∧
        ∀ v, v <:+ text.data → u.length < v.length →
          matchLooseAt depot v = none) ∧
    ((subnAnch depot newM.data text.data).2 = 1 →
      ∃ pre u g1 mid rest, text.data = pre ++ u ∧ u = g1 ++ mid ++ rest ∧
        (subnAnch depot newM.data text.data).1
          = pre ++ updRepl g1 newM.data ++ rest) := by
  refine ⟨?_, ?_, ?_, ?_⟩
  · intro hpos
    unfold update_write
    rw [if_pos hpos]
  · intro hzero
    unfold update_write
    rw [if_neg (by omega)]
  · intro out hout
    obtain ⟨pre, u, g1, rest, hsplit, hmm, houteq, hfirst⟩ := subnLooseF_decomp hout
    obtain ⟨⟨mid, hmid⟩, _⟩ := matchLooseAt_parts hmm
    exact ⟨pre, u, g1, mid, rest, hsplit, hmid, houteq, hfirst⟩
  · intro hone
    obtain ⟨pre, u, g1, rest, hsplit, hmm, houteq⟩ := subnAnchF_one_decomp hone
    obtain ⟨⟨mid, hmid⟩, _⟩ := matchAnchAt_parts hmm
    exact ⟨pre, u, g1, mid, rest, hsplit, hmid, houteq⟩

/-- Counterexample to C4 as stated: on `setManifestid(5,"1")\n\nx` the
anchored substitution's trailing `\s*$` consumes the newline after the
matched line, so the following blank line is deleted — the rest of the text
is *not* left unchanged (it would have to be `setManifestid(5,"2",0)\n\nx`). -/
theorem claim_C4_counterexample :
    update_write ("setManifestid(5,\"1\")\n\nx") 5 ("2")
      = some ("setManifestid(5,\"2\",0)\nx") ∧
    ("setManifestid(5,\"2\",0)\nx" : String) ≠ ("setManifestid(5,\"2\",0)\n\nx") := by
  exact ⟨by decide, by decide⟩

/-- Witness for C4: an anchored replacement (marker on its own line) and a
loose fallback replacement (marker mid-line), both applied through the
amended theorem. -/
theorem claim_C4_witness :
    update_write ("addappid(9)\nsetManifestid(5,\"1\",0)\nnext\n") 5 ("2")
      = some ("addappid(9)\nsetManifestid(5,\"2\",0)\nnext\n") ∧
    update_write ("x setManifestid(7,\"3\") y") 7 ("9")
      = some ("x setManifestid(7,\"9\",0) y") := by
  constructor
  · have h := claim_C4_update_order_and_shape
      ("addappid(9)\nsetManifestid(5,\"1\",0)\nnext\n") 5 ("2")
    rw [h.1 (by decide)]
    decide
  · have h := claim_C4_update_order_and_shape ("x setManifestid(7,\"3\") y") 7 ("9")
    rw [h.2.1 (by decide)]
    decide

/-! ### File placement: `copy_with_backup`

The file system is modelled as an association list from (directory, file
name) to content — all `copy_with_backup` inspects is existence, and all it
does is copy whole files and rename within the destination directory. -/

abbrev Fs : Type := List ((String × String) × String)

def fsLookup (fs : Fs) (p : String × String) : Option String :=
  (fs.find? (fun q => decide (q.1 = p))).map (fun q => q.2)

def fsErase (fs : Fs) (p : String × String) : Fs :=
  fs.filter (fun q => ! decide (q.1 = p))

/-- Create or overwrite a file. -/
def fsWrite (fs : Fs) (p : String × String) (c : String) : Fs :=
  fsErase fs p ++ [(p, c)]

/-- `pathlib` stem and suffix of a file name: split at the last dot when it
is neither the first character nor the last. -/
def splitStemSuffix (name : String) : String × String :=
  let n := name.data
  let j := (n.reverse.takeWhile (fun c => c != '.')).length
  if j < n.length then
    let i := n.length - 1 - j
    if 0 < i ∧ i < n.length - 1 then (String.mk (n.take i), String.mk (n.drop i))
    else (name, "")
  else (name, "")

/-- The rotation name sequence: `<stem>.backup<ext>` then
`<stem>.backup.1<ext>`, `<stem>.backup.2<ext>`, ... -/
def backupName (stem suf : String) : Nat → String
  | 0 => stem ++ ".backup" ++ suf
  | i + 1 => stem ++ ".backup." ++ String.mk (natToDec (i + 1)) ++ suf

/-- The `while backup.exists()` loop: first free index in the rotation
sequence.  Fuel `fs.length + 1` suffices whenever at most `fs.length`
indices are occupied, which holds in every reachable state. -/
def freeIdxAux (fs : Fs) (destDir stem suf : String) : Nat → Nat → Nat
  | 0, i => i
  | fuel + 1, i =>
    if fsLookup fs (destDir, backupName stem suf i) = none then i
    else freeIdxAux fs destDir stem suf fuel (i + 1)

def freeIdx (fs : Fs) (destDir stem suf : String) : Nat :=
  freeIdxAux fs destDir stem suf (fs.length + 1) 0

/-- `copy_with_backup(src, dest_dir)` from the source: no-op when the source
already resides in the destination directory; otherwise rotate an existing
destination file of the same name to the first free backup name, then copy.
`none` models the `FileNotFoundError` of copying a missing source. -/
def copy_with_backup (fs : Fs) (srcDir srcName destDir : String) :
    Option (Fs × (String × String)) :=
  if srcDir = destDir then some (fs, (srcDir, srcName))
  else
    match fsLookup fs (srcDir, srcName) with
    | none => none
    | some content =>
      let target : String × String := (destDir, srcName)
      let fs1 :=
        match fsLookup fs target with
        | none => fs
        | some oldc =>
          let ss := splitStemSuffix srcName
          let b := backupName ss.1 ss.2 (freeIdx fs destDir ss.1 ss.2)
          fsWrite (fsErase fs target) (destDir, b) oldc
      some (fsWrite fs1 target content, target)

/-- `InjectWorker.run`'s per-file placement, iterated: before each call the
source file holds the next content (an unchanged source places the same
content twice). -/
def placeSeq (srcDir name destDir : String) : Fs → List String → Fs
  | fs, [] => fs
  | fs, c :: cs =>
    match copy_with_backup (fsWrite fs (srcDir, name) c) srcDir name destDir with
    | some r => placeSeq srcDir name destDir r.1 cs
    | none => fs

theorem fsLookup_fsErase_self (fs : Fs) (p : String × String) :
    fsLookup (fsErase fs p) p = none := by
  unfold fsLookup fsErase
  induction fs with
  | nil => rfl
  | cons e es ih =>
    rw [List.filter_cons]
    by_cases he : e.1 = p
    · rw [if_neg (by simp [he])]
      exact ih
    · rw [if_pos (by simp [he]), List.find?_cons_of_neg _ (by simp [he])]
      exact ih

theorem fsLookup_fsErase_other {fs : Fs} {p q : String × String} (h : q ≠ p) :
    fsLookup (fsErase fs p) q = fsLookup fs q := by
  unfold fsLookup fsErase
  congr 1
  induction fs with
  | nil => rfl
  | cons e es ih =>
    rw [List.filter_cons]
    by_cases he : e.1 = p
    · rw [if_neg (by simp [he])]
      rw [List.find?_cons_of_neg _ (by simp [he]; intro hq; exact h (hq ▸ rfl))]
      exact ih
    · rw [if_pos (by simp [he])]
      by_cases heq : e.1 = q
      · rw [List.find?_cons_of_pos _ (by simp [heq]),
          List.find?_cons_of_pos _ (by simp [heq])]
      · rw [List.find?_cons_of_neg _ (by simp [heq]),
          List.find?_cons_of_neg _ (by simp [heq])]
        exact ih

theorem fsLookup_fsWrite_self (fs : Fs) (p : String × String) (c : String) :
    fsLookup (fsWrite fs p c) p = some c := by
  unfold fsWrite
  unfold fsLookup
  rw [List.find?_append]
  have h1 : (fsErase fs p).find? (fun q => decide (q.1 = p)) = none := by
    have := fsLookup_fsErase_self fs p
    unfold fsLookup at this
    cases hf : (fsErase fs p).find? (fun q => decide (q.1 = p)) with
    | none => rfl
    | some q => rw [hf] at this; cases this
  rw [h1]
  simp [List.find?]

theorem fsLookup_fsWrite_other {fs : Fs} {p q : String × String} (h : q ≠ p)
    (c : String) : fsLookup (fsWrite fs p c) q = fsLookup fs q := by
  unfold fsWrite
  have h2 : fsLookup (fsErase fs p ++ [(p, c)]) q = fsLookup (fsErase fs p) q := by
    unfold fsLookup
    rw [List.find?_append]
    rw [List.find?_cons_of_neg _ (by simp; intro hq; exact h (hq ▸ rfl)),
      List.find?_nil]
    simp
  rw [h2, fsLookup_fsErase_other h]

theorem sdata_append (a b : String) : (a ++ b).data = a.data ++ b.data := rfl

theorem smk_append (a b : List Char) :
    String.mk a ++ String.mk b = String.mk (a ++ b) := rfl

theorem splitStemSuffix_concat (name : String) :
    (splitStemSuffix name).1 ++ (splitStemSuffix name).2 = name := by
  unfold splitStemSuffix
  dsimp only
  split
  · split
    · show String.mk (name.data.take _ ++ name.data.drop _) = name
      rw [List.take_append_drop]
    · exact String.append_empty name
  · exact String.append_empty name

theorem backupName_data_zero (st sf : String) :
    (backupName st sf 0).data = st.data ++ ".backup".data ++ sf.data := rfl

theorem backupName_data_succ (st sf : String) (i : Nat) :
    (backupName st sf (i + 1)).data
      = st.data ++ ".backup.".data ++ natToDec (i + 1) ++ sf.data := rfl

theorem backupName_inj {st sf : String} :
    ∀ {i j : Nat}, backupName st sf i = backupName st sf j → i = j := by
  intro i j h
  have hd := congrArg String.data h
  match i, j with
  | 0, 0 => rfl
  | 0, j+1 =>
    exfalso
    rw [backupName_data_zero, backupName_data_succ] at hd
    have hl := congrArg List.length hd
    simp only [List.length_append] at hl
    have : 0 < (natToDec (j + 1)).length :=
      List.length_pos.mpr (natToDec_ne_nil _)
    simp [String.data] at hl
    omega
  | i+1, 0 =>
    exfalso
    rw [backupName_data_zero, backupName_data_succ] at hd
    have hl := congrArg List.length hd
    simp only [List.length_append] at hl
    have : 0 < (natToDec (i + 1)).length :=
      List.length_pos.mpr (natToDec_ne_nil _)
    simp [String.data] at hl
    omega
  | i+1, j+1 =>
    rw [backupName_data_succ, backupName_data_succ] at hd
    have h1 := List.append_cancel_right hd
    have h2 := List.append_cancel_left h1
    exact congrArg (· + 1) (Nat.succ_injective (natToDec_inj h2))

theorem backupName_ne_concat (st sf : String) (k : Nat) :
    backupName st sf k ≠ st ++ sf := by
  intro h
  have hd := congrArg String.data h
  rw [sdata_append] at hd
  match k with
  | 0 =>
    rw [backupName_data_zero] at hd
    have hl := congrArg List.length hd
    simp only [List.length_append] at hl
    simp [String.data] at hl
  | k+1 =>
    rw [backupName_data_succ] at hd
    have hl := congrArg List.length hd
    simp only [List.length_append] at hl
    have : 0 < (natToDec (k + 1)).length :=
      List.length_pos.mpr (natToDec_ne_nil _)
    simp [String.data] at hl
    omega

theorem backupName_ne_name (name : String) (k : Nat) :
    backupName (splitStemSuffix name).1 (splitStemSuffix name).2 k ≠ name := by
  intro h
  exact backupName_ne_concat _ _ k (h.trans (splitStemSuffix_concat name).symm)

example : splitStemSuffix ("f.lua") = ("f", ".lua") := by decide
example : splitStemSuffix ("noext") = ("noext", "") := by decide
example : splitStemSuffix (".hidden") = (".hidden", "") := by decide
example : splitStemSuffix ("a.b.c") = ("a.b", ".c") := by decide
example : splitStemSuffix ("f.") = ("f.", "") := by decide
example : backupName ("f") (".lua") 0 = "f.backup.lua" := by decide
example : backupName ("f") (".lua") 2 = "f.backup.2.lua" := by decide

theorem copy_with_backup_noop (fs : Fs) (d n : String) :
    copy_with_backup fs d n d = some (fs, (d, n)) := by
  unfold copy_with_backup
  rw [if_pos rfl]

theorem copy_with_backup_fresh {fs : Fs} {srcDir name destDir c : String}
    (hdir : srcDir ≠ destDir) (hsrc : fsLookup fs (srcDir, name) = some c)
    (htgt : fsLookup fs (destDir, name) = none) :
    copy_with_backup fs srcDir name destDir
      = some (fsWrite fs (destDir, name) c, (destDir, name)) := by
  unfold copy_with_backup
  rw [if_neg hdir, hsrc]
  dsimp only
  rw [htgt]

theorem copy_with_backup_rotate {fs : Fs} {srcDir name destDir c oldc : String}
    (hdir : srcDir ≠ destDir) (hsrc : fsLookup fs (srcDir, name) = some c)
    (htgt : fsLookup fs (destDir, name) = some oldc) :
    copy_with_backup fs srcDir name destDir
      = some (fsWrite (fsWrite (fsErase fs (destDir, name))
          (destDir, backupName (splitStemSuffix name).1 (splitStemSuffix name).2
            (freeIdx fs destDir (splitStemSuffix name).1 (splitStemSuffix name).2))
          oldc) (destDir, name) c, (destDir, name)) := by
  unfold copy_with_backup
  rw [if_neg hdir, hsrc]
  dsimp only
  rw [htgt]

theorem copy_with_backup_step {fs : Fs} {srcDir name destDir c : String}
    (hdir : srcDir ≠ destDir) (hsrc : fsLookup fs (srcDir, name) = some c) :
    ∃ fs1, copy_with_backup fs srcDir name destDir = some (fs1, (destDir, name)) ∧
      fsLookup fs1 (destDir, name) = some c ∧
      fsLookup fs1 (srcDir, name) = some c := by
  have hkey : ((srcDir, name) : String × String) ≠ (destDir, name) := by
    intro h; exact hdir (congrArg Prod.fst h)
  cases htgt : fsLookup fs (destDir, name) with
  | none =>
    refine ⟨_, copy_with_backup_fresh hdir hsrc htgt, ?_, ?_⟩
    · exact fsLookup_fsWrite_self _ _ _
    · rw [fsLookup_fsWrite_other hkey]; exact hsrc
  | some oldc =>
    refine ⟨_, copy_with_backup_rotate hdir hsrc htgt, ?_, ?_⟩
    · exact fsLookup_fsWrite_self _ _ _
    · rw [fsLookup_fsWrite_other hkey,
        fsLookup_fsWrite_other (fun h => hdir (congrArg Prod.fst h)),
        fsLookup_fsErase_other hkey]
      exact hsrc

/-- C6: a call with the source already in the destination directory is a
no-op returning the source path, and two consecutive calls with an
unchanged source yield the same final path — but, contrary to the claim,
the second call performs another backup rotation: it finds the first copy
occupying the target and rotates it (same content) into a fresh backup
name. -/
theorem claim_C6_repeat_placement {fs : Fs} {srcDir name destDir c : String}
    (hdir : srcDir ≠ destDir) (hsrc : fsLookup fs (srcDir, name) = some c) :
    (∀ fs' : Fs, ∀ d n : String, copy_with_backup fs' d n d = some (fs', (d, n))) ∧
    ∃ fs1 fs2 : Fs,
      copy_with_backup fs srcDir name destDir = some (fs1, (destDir, name)) ∧
      copy_with_backup fs1 srcDir name destDir = some (fs2, (destDir, name)) ∧
      fsLookup fs2 (destDir, name) = some c ∧
      fsLookup fs2 (destDir, backupName (splitStemSuffix name).1
        (splitStemSuffix name).2 (freeIdx fs1 destDir (splitStemSuffix name).1
          (splitStemSuffix name).2)) = some c := by
  refine ⟨copy_with_backup_noop, ?_⟩
  obtain ⟨fs1, h1, htgt1, hsrc1⟩ := copy_with_backup_step hdir hsrc
  refine ⟨fs1, _, h1, copy_with_backup_rotate hdir hsrc1 htgt1, ?_, ?_⟩
  · exact fsLookup_fsWrite_self _ _ _
  · rw [fsLookup_fsWrite_other
      (fun h => backupName_ne_name name _ (congrArg Prod.snd h))]
    exact fsLookup_fsWrite_self _ _ _

theorem claim_C6_counterexample :
    ((copy_with_backup [(("s", "f.lua"), "A")] "s" "f.lua" "d").map
        (fun r => fsLookup r.1 ("d", "f.backup.lua")) = some none) ∧
    ((copy_with_backup [(("s", "f.lua"), "A")] "s" "f.lua" "d").bind
        (fun r => (copy_with_backup r.1 "s" "f.lua" "d").map
          (fun r2 => fsLookup r2.1 ("d", "f.backup.lua"))) = some (some "A")) := by
  constructor
  · rfl
  · rfl

theorem claim_C6_witness :
    (("s" : String) ≠ "d") ∧
    ((∀ fs' : Fs, ∀ d n : String, copy_with_backup fs' d n d = some (fs', (d, n))) ∧
    ∃ fs1 fs2 : Fs,
      copy_with_backup [(("s", "f.lua"), "A")] "s" "f.lua" "d"
        = some (fs1, ("d", "f.lua")) ∧
      copy_with_backup fs1 "s" "f.lua" "d" = some (fs2, ("d", "f.lua")) ∧
      fsLookup fs2 ("d", "f.lua") = some "A" ∧
      fsLookup fs2 ("d", backupName (splitStemSuffix "f.lua").1
        (splitStemSuffix "f.lua").2 (freeIdx fs1 "d" (splitStemSuffix "f.lua").1
          (splitStemSuffix "f.lua").2)) = some "A") :=
  ⟨by decide, claim_C6_repeat_placement (by decide) (by decide)⟩

abbrev fsKeys (fs : Fs) : List (String × String) := fs.map (fun q => q.1)

theorem fsLookup_none_iff {fs : Fs} {p : String × String} :
    fsLookup fs p = none ↔ ∀ q ∈ fs, q.1 ≠ p := by
  unfold fsLookup
  constructor
  · intro h q hq he
    cases hf : fs.find? (fun r => decide (r.1 = p)) with
    | none =>
      have := List.find?_eq_none.mp hf q hq
      simp [he] at this
    | some r => rw [hf] at h; simp at h
  · intro h
    rw [List.find?_eq_none.mpr (fun q hq => by simp [h q hq])]
    rfl

theorem fsLookup_none_of_not_mem {fs : Fs} {p : String × String}
    (h : p ∉ fsKeys fs) : fsLookup fs p = none :=
  fsLookup_none_iff.mpr (fun _q hq he =>
    h (he ▸ List.mem_map_of_mem (fun r => r.1) hq))

theorem fsErase_of_none {fs : Fs} {p : String × String}
    (h : fsLookup fs p = none) : fsErase fs p = fs := by
  unfold fsErase
  rw [List.filter_eq_self.mpr]
  intro r hr
  simp only [Bool.not_eq_eq_eq_not, Bool.not_true, decide_eq_false_iff_not]
  exact fsLookup_none_iff.mp h r hr

theorem fsLookup_cons_ne {e : (String × String) × String} {es : Fs}
    {p : String × String} (he : e.1 ≠ p) :
    fsLookup (e :: es) p = fsLookup es p := by
  unfold fsLookup
  rw [List.find?_cons_of_neg _ (by simp [he])]

theorem fsErase_length_of_some {fs : Fs} {p : String × String} {c : String}
    (hnd : (fsKeys fs).Nodup) (h : fsLookup fs p = some c) :
    (fsErase fs p).length + 1 = fs.length := by
  induction fs with
  | nil => cases h
  | cons e es ih =>
    rw [fsKeys, List.map_cons, List.nodup_cons] at hnd
    unfold fsErase
    rw [List.filter_cons]
    by_cases he : e.1 = p
    · rw [if_neg (by simp [he])]
      have hnm : p ∉ fsKeys es := he ▸ hnd.1
      have : fsErase es p = es := fsErase_of_none (fsLookup_none_of_not_mem hnm)
      unfold fsErase at this
      rw [this, List.length_cons]
    · rw [if_pos (by simp [he]), List.length_cons, List.length_cons]
      have h2 : fsLookup es p = some c := by
        rw [← fsLookup_cons_ne he]; exact h
      have := ih hnd.2 h2
      unfold fsErase at this
      omega

theorem fsKeys_fsWrite (fs : Fs) (p : String × String) (c : String) :
    fsKeys (fsWrite fs p c) = fsKeys (fsErase fs p) ++ [p] := by
  unfold fsWrite fsKeys
  rw [List.map_append]
  rfl

theorem fsErase_nodup {fs : Fs} (p : String × String)
    (hnd : (fsKeys fs).Nodup) : (fsKeys (fsErase fs p)).Nodup := by
  have hsub : (fsErase fs p).Sublist fs := List.filter_sublist fs
  exact hnd.sublist (List.Sublist.map (fun q => q.1) hsub)

theorem fsWrite_nodup {fs : Fs} (p : String × String) (c : String)
    (hnd : (fsKeys fs).Nodup) : (fsKeys (fsWrite fs p c)).Nodup := by
  rw [fsKeys_fsWrite]
  apply List.Nodup.append (fsErase_nodup p hnd) (List.nodup_singleton p)
  intro q hq hq1
  rw [List.mem_singleton] at hq1
  subst hq1
  unfold fsKeys fsErase at hq
  obtain ⟨r, hr, hr1⟩ := List.mem_map.mp hq
  have := List.of_mem_filter hr
  simp [hr1] at this

theorem fsWrite_length_of_none {fs : Fs} {p : String × String} (c : String)
    (h : fsLookup fs p = none) : (fsWrite fs p c).length = fs.length + 1 := by
  unfold fsWrite
  rw [fsErase_of_none h, List.length_append, List.length_cons, List.length_nil]

theorem fsWrite_length_of_some {fs : Fs} {p : String × String} {c c' : String}
    (hnd : (fsKeys fs).Nodup) (h : fsLookup fs p = some c') :
    (fsWrite fs p c).length = fs.length := by
  unfold fsWrite
  rw [List.length_append, List.length_cons, List.length_nil]
  have := fsErase_length_of_some hnd h
  omega

theorem fsWrite_length_ge {fs : Fs} (p : String × String) (c : String)
    (hnd : (fsKeys fs).Nodup) : fs.length ≤ (fsWrite fs p c).length := by
  cases h : fsLookup fs p with
  | none => rw [fsWrite_length_of_none c h]; omega
  | some c' => rw [fsWrite_length_of_some hnd h]

theorem freeIdxAux_spec {fs : Fs} {destDir st sf : String} :
    ∀ {m : Nat} (fuel start : Nat),
      (∀ j, j < m → fsLookup fs (destDir, backupName st sf (start + j)) ≠ none) →
      fsLookup fs (destDir, backupName st sf (start + m)) = none →
      m < fuel →
      freeIdxAux fs destDir st sf fuel start = start + m := by
  intro m
  induction m with
  | zero =>
    intro fuel start _ h2 hf
    match fuel, hf with
    | fuel + 1, _ =>
      unfold freeIdxAux
      rw [if_pos (by rw [show start + 0 = start from rfl] at h2; exact h2)]
      omega
  | succ m ih =>
    intro fuel start h1 h2 hf
    match fuel, hf with
    | fuel + 1, _ =>
      unfold freeIdxAux
      rw [if_neg (by
        have h := h1 0 (by omega)
        rw [show start + 0 = start from rfl] at h
        exact h)]
      have h1' : ∀ j, j < m →
          fsLookup fs (destDir, backupName st sf (start + 1 + j)) ≠ none := by
        intro j hj
        have h := h1 (j + 1) (by omega)
        rw [show start + (j + 1) = start + 1 + j by omega] at h
        exact h
      have h2' : fsLookup fs (destDir, backupName st sf (start + 1 + m)) = none := by
        rw [show start + 1 + m = start + (m + 1) by omega]
        exact h2
      rw [ih fuel (start + 1) h1' h2' (by omega)]
      omega

theorem freeIdx_spec {fs : Fs} {destDir st sf : String} {m : Nat}
    (h1 : ∀ j, j < m → fsLookup fs (destDir, backupName st sf j) ≠ none)
    (h2 : fsLookup fs (destDir, backupName st sf m) = none)
    (hm : m ≤ fs.length) :
    freeIdx fs destDir st sf = m := by
  unfold freeIdx
  have := freeIdxAux_spec (fs.length + 1) 0
    (by intro j hj; rw [Nat.zero_add]; exact h1 j hj)
    (by rw [Nat.zero_add]; exact h2) (by omega)
  rw [this, Nat.zero_add]

/-- Shape of the destination directory after the contents of `placed` have
been placed in order under the name `name`: the live file holds the last
placed content and the backup names hold, in rotation order, every content
that was live immediately before being superseded. -/
def destInv (srcDir name destDir : String) (placed : List String) (fs : Fs) :
    Prop :=
  (fsKeys fs).Nodup ∧
  placed.length ≤ fs.length ∧
  fsLookup fs (srcDir, name) = placed.getLast? ∧
  fsLookup fs (destDir, name) = placed.getLast? ∧
  ∀ j : Nat, fsLookup fs (destDir,
      backupName (splitStemSuffix name).1 (splitStemSuffix name).2 j)
    = if j + 2 ≤ placed.length then placed[j]? else none

theorem place_step {srcDir name destDir : String} (hdir : srcDir ≠ destDir)
    (placed : List String) (c : String) (fs : Fs)
    (hInv : destInv srcDir name destDir placed fs) :
    ∃ fs', copy_with_backup (fsWrite fs (srcDir, name) c) srcDir name destDir
        = some (fs', (destDir, name)) ∧
      destInv srcDir name destDir (placed ++ [c]) fs' := by
  obtain ⟨hnd, hlen, _hsrcL, htgtL, hbk⟩ := hInv
  have hkeyTS : ((destDir, name) : String × String) ≠ (srcDir, name) :=
    fun h => hdir (congrArg Prod.fst h).symm
  have hkeyST : ((srcDir, name) : String × String) ≠ (destDir, name) :=
    fun h => hdir (congrArg Prod.fst h)
  have hkeySB : ∀ j, ((srcDir, name) : String × String)
      ≠ (destDir, backupName (splitStemSuffix name).1 (splitStemSuffix name).2 j) :=
    fun _ h => hdir (congrArg Prod.fst h)
  have hkeyBS : ∀ j, ((destDir, backupName (splitStemSuffix name).1
      (splitStemSuffix name).2 j) : String × String) ≠ (srcDir, name) :=
    fun _ h => hdir (congrArg Prod.fst h).symm
  have hkeyBT : ∀ j, ((destDir, backupName (splitStemSuffix name).1
      (splitStemSuffix name).2 j) : String × String) ≠ (destDir, name) :=
    fun j h => backupName_ne_name name j (congrArg Prod.snd h)
  have hkeyTB : ∀ j, ((destDir, name) : String × String)
      ≠ (destDir, backupName (splitStemSuffix name).1 (splitStemSuffix name).2 j) :=
    fun j h => backupName_ne_name name j (congrArg Prod.snd h).symm
  have hsrc_w : fsLookup (fsWrite fs (srcDir, name) c) (srcDir, name) = some c :=
    fsLookup_fsWrite_self _ _ _
  have htgt_w : fsLookup (fsWrite fs (srcDir, name) c) (destDir, name)
      = placed.getLast? := by
    rw [fsLookup_fsWrite_other hkeyTS]; exact htgtL
  have hbk_w : ∀ j, fsLookup (fsWrite fs (srcDir, name) c)
      (destDir, backupName (splitStemSuffix name).1 (splitStemSuffix name).2 j)
      = if j + 2 ≤ placed.length then placed[j]? else none := by
    intro j; rw [fsLookup_fsWrite_other (hkeyBS j)]; exact hbk j
  have hnd_w : (fsKeys (fsWrite fs (srcDir, name) c)).Nodup := fsWrite_nodup _ _ hnd
  have hlen_w : placed.length ≤ (fsWrite fs (srcDir, name) c).length :=
    le_trans hlen (fsWrite_length_ge _ _ hnd)
  rcases List.eq_nil_or_concat placed with hpe | ⟨ys, y, hpe⟩
  · subst hpe
    have htgt0 : fsLookup (fsWrite fs (srcDir, name) c) (destDir, name) = none :=
      htgt_w
    refine ⟨_, copy_with_backup_fresh hdir hsrc_w htgt0, ?_, ?_, ?_, ?_, ?_⟩
    · exact fsWrite_nodup _ _ hnd_w
    · rw [fsWrite_length_of_none _ htgt0]
      simp
    · rw [fsLookup_fsWrite_other hkeyST]
      exact hsrc_w
    · exact fsLookup_fsWrite_self _ _ _
    · intro j
      rw [fsLookup_fsWrite_other (hkeyBT j), hbk_w j]
      rw [if_neg (by simp), if_neg (by simp)]
  · rw [List.concat_eq_append] at hpe
    subst hpe
    have hplen : (ys ++ [y]).length = ys.length + 1 := by simp
    have hlast : (ys ++ [y]).getLast? = some y := List.getLast?_concat ys
    have htgt1 : fsLookup (fsWrite fs (srcDir, name) c) (destDir, name)
        = some y := by rw [htgt_w, hlast]
    have hfree : freeIdx (fsWrite fs (srcDir, name) c) destDir
        (splitStemSuffix name).1 (splitStemSuffix name).2 = ys.length := by
      apply freeIdx_spec
      · intro j hj
        rw [hbk_w j, if_pos (by omega)]
        rw [List.getElem?_append_left (by omega)]
        rw [List.getElem?_eq_getElem hj]
        simp
      · rw [hbk_w ys.length, if_neg (by omega)]
      · omega
    have hrot := copy_with_backup_rotate hdir hsrc_w htgt1
    rw [hfree] at hrot
    have hBfree : fsLookup (fsWrite fs (srcDir, name) c) (destDir,
        backupName (splitStemSuffix name).1 (splitStemSuffix name).2 ys.length)
        = none := by
      rw [hbk_w ys.length, if_neg (by omega)]
    have he1B : fsLookup (fsErase (fsWrite fs (srcDir, name) c) (destDir, name))
        (destDir, backupName (splitStemSuffix name).1 (splitStemSuffix name).2
          ys.length) = none := by
      rw [fsLookup_fsErase_other (hkeyBT ys.length)]
      exact hBfree
    have hnd_e1 : (fsKeys (fsErase (fsWrite fs (srcDir, name) c)
        (destDir, name))).Nodup := fsErase_nodup _ hnd_w
    have hnd_w1 : (fsKeys (fsWrite (fsErase (fsWrite fs (srcDir, name) c)
        (destDir, name)) (destDir, backupName (splitStemSuffix name).1
          (splitStemSuffix name).2 ys.length) y)).Nodup :=
      fsWrite_nodup _ _ hnd_e1
    have hw1tgt : fsLookup (fsWrite (fsErase (fsWrite fs (srcDir, name) c)
        (destDir, name)) (destDir, backupName (splitStemSuffix name).1
          (splitStemSuffix name).2 ys.length) y) (destDir, name) = none := by
      rw [fsLookup_fsWrite_other (hkeyTB ys.length)]
      exact fsLookup_fsErase_self _ _
    have he1len := fsErase_length_of_some hnd_w htgt1
    have hw1len := fsWrite_length_of_none y he1B
    refine ⟨_, hrot, ?_, ?_, ?_, ?_, ?_⟩
    · exact fsWrite_nodup _ _ hnd_w1
    · rw [fsWrite_length_of_none _ hw1tgt]
      simp only [List.length_append, List.length_cons, List.length_nil] at *
      omega
    · rw [fsLookup_fsWrite_other hkeyST,
        fsLookup_fsWrite_other (hkeySB ys.length),
        fsLookup_fsErase_other hkeyST, hsrc_w, List.append_assoc,
        List.getLast?_append]
      rfl
    · rw [fsLookup_fsWrite_self, List.append_assoc, List.getLast?_append]
      rfl
    · intro j
      rw [fsLookup_fsWrite_other (hkeyBT j)]
      by_cases hj : j = ys.length
      · subst hj
        rw [fsLookup_fsWrite_self]
        rw [if_pos (by simp)]
        rw [List.getElem?_append_left (by simp), List.getElem?_concat_length]
      · have hBB : ((destDir, backupName (splitStemSuffix name).1
            (splitStemSuffix name).2 j) : String × String)
            ≠ (destDir, backupName (splitStemSuffix name).1
              (splitStemSuffix name).2 ys.length) :=
          fun h => hj (backupName_inj (congrArg Prod.snd h))
        rw [fsLookup_fsWrite_other hBB, fsLookup_fsErase_other (hkeyBT j),
          hbk_w j]
        by_cases hj2 : j + 2 ≤ (ys ++ [y]).length
        · rw [if_pos hj2, if_pos (by simp at hj2 ⊢; omega)]
          exact (List.getElem?_append_left (by simp at hj2 ⊢; omega)).symm
        · rw [if_neg hj2, if_neg (by simp at hj2 ⊢; omega)]

theorem placeSeq_inv {srcDir name destDir : String} (hdir : srcDir ≠ destDir) :
    ∀ (rest placed : List String) (fs : Fs),
      destInv srcDir name destDir placed fs →
      destInv srcDir name destDir (placed ++ rest)
        (placeSeq srcDir name destDir fs rest) := by
  intro rest
  induction rest with
  | nil =>
    intro placed fs h
    rw [List.append_nil]
    exact h
  | cons c cs ih =>
    intro placed fs h
    obtain ⟨fs', hstep, hinv'⟩ := place_step hdir placed c fs h
    unfold placeSeq
    rw [hstep]
    have := ih (placed ++ [c]) fs' hinv'
    rw [List.append_assoc] at this
    exact this

theorem destInv_nil (srcDir name destDir : String) :
    destInv srcDir name destDir [] [] := by
  refine ⟨List.nodup_nil, by simp, rfl, rfl, fun j => ?_⟩
  rw [if_neg (by simp)]
  rfl

/-- C7: when the destination slot is occupied, `copy_with_backup` rotates
the occupant to the first free name in the sequence `<stem>.backup<ext>`,
`<stem>.backup.1<ext>`, `<stem>.backup.2<ext>`, ... before writing; after
placing the N contents of `L` in order under one name into an empty
destination, the live file holds the last content, exactly the N-1 backup
names at indices 0..N-2 exist, and backup j holds `L[j]` — the content
that was live immediately before being superseded. -/
theorem claim_C7_backup_rotation (srcDir name destDir : String)
    (L : List String) (hdir : srcDir ≠ destDir) (_hne : L ≠ [])
    (_hdiff : List.Chain' (fun a b => a ≠ b) L) :
    fsLookup (placeSeq srcDir name destDir [] L) (destDir, name) = L.getLast? ∧
    (∀ j : Nat, j + 2 ≤ L.length →
      fsLookup (placeSeq srcDir name destDir [] L) (destDir,
        backupName (splitStemSuffix name).1 (splitStemSuffix name).2 j) = L[j]?) ∧
    (∀ j : Nat, L.length ≤ j + 1 →
      fsLookup (placeSeq srcDir name destDir [] L) (destDir,
        backupName (splitStemSuffix name).1 (splitStemSuffix name).2 j) = none) := by
  have h := placeSeq_inv hdir L [] [] (destInv_nil srcDir name destDir)
  rw [List.nil_append] at h
  obtain ⟨_, _, _, htgt, hbk⟩ := h
  refine ⟨htgt, fun j hj => ?_, fun j hj => ?_⟩
  · rw [hbk j, if_pos hj]
  · rw [hbk j, if_neg (by omega)]

theorem claim_C7_witness :
    (("s" : String) ≠ "d") ∧ (["A", "B", "C"] ≠ ([] : List String)) ∧
    List.Chain' (fun a b => a ≠ b) ["A", "B", "C"] ∧
    fsLookup (placeSeq "s" "f.lua" "d" [] ["A", "B", "C"]) ("d", "f.lua")
      = some "C" ∧
    fsLookup (placeSeq "s" "f.lua" "d" [] ["A", "B", "C"]) ("d", "f.backup.lua")
      = some "A" ∧
    fsLookup (placeSeq "s" "f.lua" "d" [] ["A", "B", "C"]) ("d", "f.backup.1.lua")
      = some "B" ∧
    fsLookup (placeSeq "s" "f.lua" "d" [] ["A", "B", "C"]) ("d", "f.backup.2.lua")
      = none := by
  have hch : List.Chain' (fun a b : String => a ≠ b) ["A", "B", "C"] :=
    List.chain'_cons.mpr ⟨by decide,
      List.chain'_cons.mpr ⟨by decide, List.chain'_singleton _⟩⟩
  have h := claim_C7_backup_rotation "s" "f.lua" "d" ["A", "B", "C"]
    (by decide) (by decide) hch
  refine ⟨by decide, by decide, hch, h.1.trans (by decide), ?_, ?_, ?_⟩
  · have h0 := h.2.1 0 (by decide)
    rw [show (("d", backupName (splitStemSuffix "f.lua").1
      (splitStemSuffix "f.lua").2 0) : String × String)
      = ("d", "f.backup.lua") by decide] at h0
    exact h0.trans (by decide)
  · have h1 := h.2.1 1 (by decide)
    rw [show (("d", backupName (splitStemSuffix "f.lua").1
      (splitStemSuffix "f.lua").2 1) : String × String)
      = ("d", "f.backup.1.lua") by decide] at h1
    exact h1.trans (by decide)
  · have h2 := h.2.2 2 (by decide)
    rw [show (("d", backupName (splitStemSuffix "f.lua").1
      (splitStemSuffix "f.lua").2 2) : String × String)
      = ("d", "f.backup.2.lua") by decide] at h2
    exact h2

/-! ### Registry: `load_latest_rows` -/

/-- One row of the `gamesAdded` table.  `moved_at` is the timestamp; its
textual SQLite form is totally ordered, modelled here as a natural
number. -/
structure Row where
  filename : String
  appid : Nat
  depot : Nat
  manifest_id : String
  dest_path : String
  moved_at : Nat
  multi : Nat
deriving DecidableEq

/-- Insert a row into a list sorted by `moved_at`, after every row of
equal or smaller timestamp — a stable model of `ORDER BY moved_at ASC`
over rows enumerated in insertion (rowid) order. -/
def insertT (r : Row) : List Row → List Row
  | [] => [r]
  | s :: ss => if s.moved_at ≤ r.moved_at then s :: insertT r ss
               else r :: s :: ss

def sortByTime (rows : List Row) : List Row :=
  rows.foldl (fun acc r => insertT r acc) []

def latestDict (rows : List Row) : List ((String × Nat) × Row) :=
  dictOf ((sortByTime rows).map (fun r => ((r.filename, r.depot), r)))

/-- `load_latest_rows`: fold the rows in `moved_at` order into a dict
keyed by `(filename, depot)` — later rows overwrite — and return its
values. -/
def load_latest_rows (rows : List Row) : List Row :=
  (latestDict rows).map (fun q => q.2)

theorem mem_insertT {r x : Row} :
    ∀ {acc : List Row}, x ∈ insertT r acc → x = r ∨ x ∈ acc := by
  intro acc
  induction acc with
  | nil =>
    intro h
    rw [insertT, List.mem_singleton] at h
    exact Or.inl h
  | cons s ss ih =>
    intro h
    rw [insertT] at h
    by_cases hle : s.moved_at ≤ r.moved_at
    · rw [if_pos hle, List.mem_cons] at h
      rcases h with h | h
      · exact Or.inr (h ▸ List.mem_cons_self s ss)
      · rcases ih h with h | h
        · exact Or.inl h
        · exact Or.inr (List.mem_cons_of_mem s h)
    · rw [if_neg hle, List.mem_cons] at h
      rcases h with h | h
      · exact Or.inl h
      · exact Or.inr h

theorem insertT_sorted {r : Row} :
    ∀ {acc : List Row},
      acc.Pairwise (fun a b => a.moved_at ≤ b.moved_at) →
      (insertT r acc).Pairwise (fun a b => a.moved_at ≤ b.moved_at) := by
  intro acc
  induction acc with
  | nil =>
    intro _
    rw [insertT]
    exact List.pairwise_singleton _ r
  | cons s ss ih =>
    intro h
    rw [List.pairwise_cons] at h
    rw [insertT]
    by_cases hle : s.moved_at ≤ r.moved_at
    · rw [if_pos hle, List.pairwise_cons]
      refine ⟨?_, ih h.2⟩
      intro x hx
      rcases mem_insertT hx with hx | hx
      · exact hx ▸ hle
      · exact h.1 x hx
    · rw [if_neg hle, List.pairwise_cons]
      refine ⟨?_, List.pairwise_cons.mpr h⟩
      intro x hx
      rw [List.mem_cons] at hx
      rcases hx with hx | hx
      · subst hx; omega
      · have := h.1 x hx; omega

theorem insertT_nil (r : Row) : insertT r [] = [r] := rfl

theorem insertT_cons (r s : Row) (ss : List Row) :
    insertT r (s :: ss)
      = if s.moved_at ≤ r.moved_at then s :: insertT r ss else r :: s :: ss :=
  rfl

theorem filter_insertT_neg {P : Row → Bool} {r : Row} (hr : P r = false) :
    ∀ (acc : List Row), (insertT r acc).filter P = acc.filter P := by
  intro acc
  induction acc with
  | nil => rw [insertT_nil, List.filter_cons, hr]; simp
  | cons s ss ih =>
    rw [insertT_cons]
    by_cases hle : s.moved_at ≤ r.moved_at
    · rw [if_pos hle, List.filter_cons, List.filter_cons, ih]
    · rw [if_neg hle, List.filter_cons, hr]
      simp

theorem filter_insertT_pos {P : Row → Bool} {r : Row} (hr : P r = true) :
    ∀ {acc : List Row},
      acc.Pairwise (fun a b => a.moved_at ≤ b.moved_at) →
      (insertT r acc).filter P = insertT r (acc.filter P) := by
  intro acc
  induction acc with
  | nil =>
    intro _
    rw [insertT_nil, List.filter_nil, insertT_nil, List.filter_cons, hr]
    simp
  | cons s ss ih =>
    intro h
    rw [List.pairwise_cons] at h
    rw [insertT_cons]
    by_cases hle : s.moved_at ≤ r.moved_at
    · rw [if_pos hle, List.filter_cons, List.filter_cons]
      by_cases hPs : P s = true
      · rw [if_pos hPs, if_pos hPs, ih h.2, insertT_cons, if_pos hle]
      · rw [if_neg hPs, if_neg hPs, ih h.2]
    · rw [if_neg hle, List.filter_cons, hr, List.filter_cons]
      simp only [if_pos trivial]
      by_cases hPs : P s = true
      · rw [if_pos hPs, insertT_cons, if_neg hle]
      · rw [if_neg hPs]
        have hall : ∀ x ∈ ss.filter P, ¬ x.moved_at ≤ r.moved_at := by
          intro x hx
          have hmem := List.mem_of_mem_filter hx
          have := h.1 x hmem
          omega
        cases hfs : ss.filter P with
        | nil => rw [insertT_nil]
        | cons x xs =>
          rw [insertT_cons, if_neg (hall x (hfs ▸ List.mem_cons_self x xs))]

theorem filter_foldl_insertT {P : Row → Bool} :
    ∀ (rows acc : List Row),
      acc.Pairwise (fun a b => a.moved_at ≤ b.moved_at) →
      (rows.foldl (fun a r => insertT r a) acc).filter P
        = (rows.filter P).foldl (fun a r => insertT r a) (acc.filter P) := by
  intro rows
  induction rows with
  | nil => intro acc _; rfl
  | cons r rs ih =>
    intro acc h
    rw [List.foldl_cons, List.filter_cons]
    by_cases hPr : P r = true
    · rw [if_pos hPr, List.foldl_cons, ih _ (insertT_sorted h),
        filter_insertT_pos hPr h]
    · rw [if_neg hPr, ih _ (insertT_sorted h),
        filter_insertT_neg (Bool.not_eq_true _ ▸ hPr : P r = false)]

theorem filter_sortByTime (P : Row → Bool) (rows : List Row) :
    (sortByTime rows).filter P = sortByTime (rows.filter P) := by
  unfold sortByTime
  rw [filter_foldl_insertT rows [] List.Pairwise.nil]
  rfl

theorem sortByTime_pair {r1 r2 : Row} (h : r1.moved_at ≤ r2.moved_at) :
    sortByTime [r1, r2] = [r1, r2] := by
  unfold sortByTime
  rw [List.foldl_cons, List.foldl_cons, List.foldl_nil,
    insertT_nil, insertT_cons, if_pos h, insertT_nil]

/-- C5: when the registry's only rows for key `(f, d)` are `r1` inserted
before `r2` and `r1.moved_at ≤ r2.moved_at` (strictly later timestamp, or
a tie broken by insertion order), the latest-rows fold reports `r2`'s
manifest for that key and `r2` is among the returned rows. -/
theorem claim_C5_latest_wins {rows : List Row} {f : String} {d : Nat}
    {r1 r2 : Row}
    (hkey : rows.filter (fun r => decide ((r.filename, r.depot) = (f, d)))
      = [r1, r2])
    (ht : r1.moved_at ≤ r2.moved_at) :
    (dlookup (f, d) (latestDict rows)).map (fun r => r.manifest_id)
      = some r2.manifest_id ∧
    r2 ∈ load_latest_rows rows := by
  have hdl : dlookup ((f, d) : String × Nat) (latestDict rows) = some r2 := by
    unfold latestDict
    rw [dlookup_dictOf,
      List.filter_map (fun r : Row => ((r.filename, r.depot), r)),
      show ((fun q : (String × Nat) × Row => decide (q.1 = (f, d)))
          ∘ (fun r : Row => ((r.filename, r.depot), r)))
        = (fun r : Row => decide ((r.filename, r.depot) = (f, d))) from rfl,
      filter_sortByTime, hkey, sortByTime_pair ht]
    simp
  refine ⟨by rw [hdl, Option.map_some'], ?_⟩
  have hm := dlookup_mem hdl
  exact List.mem_map_of_mem (fun q => q.2) hm

theorem claim_C5_witness :
    (([⟨"g.lua", 1, 7, "m1", "p", 1, 0⟩,
       ⟨"g.lua", 1, 7, "m2", "p", 2, 0⟩] : List Row).filter
        (fun r => decide ((r.filename, r.depot) = ("g.lua", 7)))
      = [⟨"g.lua", 1, 7, "m1", "p", 1, 0⟩, ⟨"g.lua", 1, 7, "m2", "p", 2, 0⟩]) ∧
    ((1 : Nat) ≤ 2) ∧
    ((dlookup ("g.lua", 7) (latestDict
        [⟨"g.lua", 1, 7, "m1", "p", 1, 0⟩,
         ⟨"g.lua", 1, 7, "m2", "p", 2, 0⟩])).map (fun r => r.manifest_id)
      = some "m2" ∧
    (⟨"g.lua", 1, 7, "m2", "p", 2, 0⟩ : Row) ∈ load_latest_rows
        [⟨"g.lua", 1, 7, "m1", "p", 1, 0⟩,
         ⟨"g.lua", 1, 7, "m2", "p", 2, 0⟩]) :=
  ⟨by decide, by decide,
    @claim_C5_latest_wins
      [⟨"g.lua", 1, 7, "m1", "p", 1, 0⟩, ⟨"g.lua", 1, 7, "m2", "p", 2, 0⟩]
      "g.lua" 7 ⟨"g.lua", 1, 7, "m1", "p", 1, 0⟩ ⟨"g.lua", 1, 7, "m2", "p", 2, 0⟩
      (by decide) (by decide)⟩

/-! ### The Apply workflow: `UpdateApplyWorker.run` -/

/-- One entry of the `updates` list handed to the apply worker. -/
structure Candidate where
  filename : String
  appid : Nat
  multi : Nat
  depot : Nat
  latest_manifest : String
  dest_path : String
  lua_path : String
deriving DecidableEq

structure ApplyState where
  files : List (String × String)
  rows : List Row
  succeeded : Nat
  failed : Nat
deriving DecidableEq

def flookup (files : List (String × String)) (p : String) : Option String :=
  (files.find? (fun q => decide (q.1 = p))).map (fun q => q.2)

def fwrite (files : List (String × String)) (p c : String) :
    List (String × String) :=
  files.map (fun q => if q.1 = p then (p, c) else q)

/-- `UPDATE gamesAdded SET manifest_id = ? WHERE filename = ? AND depot = ?`:
the updated table together with `cur.rowcount`. -/
def update_db_manifest (rows : List Row) (filename : String) (depot : Nat)
    (newM : String) : List Row × Nat :=
  (rows.map (fun r => if r.filename = filename ∧ r.depot = depot then
      { r with manifest_id := newM } else r),
   rows.countP (fun r => decide (r.filename = filename ∧ r.depot = depot)))

/-- `INSERT INTO gamesAdded ...`; `now` stands for the row's timestamp. -/
def record_in_db (rows : List Row) (filename : String) (appid depot : Nat)
    (manifest_id dest_path : String) (multi now : Nat) : List Row :=
  rows ++ [⟨filename, appid, depot, manifest_id, dest_path, now, multi⟩]

/-- `update_lua_manifest` acting on the file store: a missing or
unreadable file, and a text without any matching pattern, leave the store
unchanged and report `False`; otherwise the substituted text is written
and the verification search decides the result. -/
def update_lua_manifest_fs (files : List (String × String)) (path : String)
    (depot : Nat) (newM : String) : List (String × String) × Bool :=
  match flookup files path with
  | none => (files, false)
  | some text =>
    match update_write text depot newM with
    | none => (files, false)
    | some t => (fwrite files path t, searchCheck depot newM.data t.data)

/-- The body of the apply loop for one candidate.  `dbRaises` models an
exception raised by the registry step inside the `try`. -/
def applyOne (now : Nat) (dbRaises : Bool) (st : ApplyState) (it : Candidate) :
    ApplyState :=
  let fu := update_lua_manifest_fs st.files it.lua_path it.depot
    it.latest_manifest
  let ok_file := fu.2
  let step : ApplyState × Bool :=
    if ok_file then
      if dbRaises then (⟨fu.1, st.rows, st.succeeded, st.failed⟩, false)
      else
        let ud := update_db_manifest st.rows it.filename it.depot
          it.latest_manifest
        let rows2 := if ud.2 = 0 then
            record_in_db ud.1 it.filename it.appid it.depot
              it.latest_manifest it.dest_path it.multi now
          else ud.1
        (⟨fu.1, rows2, st.succeeded, st.failed⟩, true)
    else (⟨fu.1, st.rows, st.succeeded, st.failed⟩, false)
  if ok_file && step.2 then
    { step.1 with succeeded := step.1.succeeded + 1 }
  else
    { step.1 with failed := step.1.failed + 1 }

/-- C2: for one candidate of the apply loop, the file store always ends as
the file-update step leaves it; if that step fails, the registry is
untouched and the candidate counts as failed; if it succeeds but the
registry step raises, the registry is untouched and the candidate still
counts as failed even though the file was already mutated; if both
succeed, the candidate counts as succeeded and afterwards every registry
row with the candidate's (filename, depot) key carries the new manifest
and at least one such row exists — zero matched rows being healed by
appending a fresh row. -/
theorem claim_C2_apply_error_handling (now : Nat) (dbRaises : Bool)
    (st : ApplyState) (it : Candidate) :
    (applyOne now dbRaises st it).files
      = (update_lua_manifest_fs st.files it.lua_path it.depot
          it.latest_manifest).1 ∧
    ((update_lua_manifest_fs st.files it.lua_path it.depot
        it.latest_manifest).2 = false →
      (applyOne now dbRaises st it).rows = st.rows ∧
      (applyOne now dbRaises st it).failed = st.failed + 1 ∧
      (applyOne now dbRaises st it).succeeded = st.succeeded) ∧
    ((update_lua_manifest_fs st.files it.lua_path it.depot
        it.latest_manifest).2 = true → dbRaises = true →
      (applyOne now dbRaises st it).rows = st.rows ∧
      (applyOne now dbRaises st it).failed = st.failed + 1 ∧
      (applyOne now dbRaises st it).succeeded = st.succeeded) ∧
    ((update_lua_manifest_fs st.files it.lua_path it.depot
        it.latest_manifest).2 = true → dbRaises = false →
      (applyOne now dbRaises st it).succeeded = st.succeeded + 1 ∧
      (applyOne now dbRaises st it).failed = st.failed ∧
      (∀ r ∈ (applyOne now dbRaises st it).rows,
        r.filename = it.filename → r.depot = it.depot →
        r.manifest_id = it.latest_manifest) ∧
      (∃ r ∈ (applyOne now dbRaises st it).rows,
        r.filename = it.filename ∧ r.depot = it.depot)) := by
  cases hok : (update_lua_manifest_fs st.files it.lua_path it.depot
      it.latest_manifest).2 with
  | false =>
    have ha : applyOne now dbRaises st it
        = ⟨(update_lua_manifest_fs st.files it.lua_path it.depot
            it.latest_manifest).1, st.rows, st.succeeded, st.failed + 1⟩ := by
      unfold applyOne
      dsimp only
      rw [hok]
      simp
    rw [ha]
    exact ⟨rfl, fun _ => ⟨rfl, rfl, rfl⟩,
      fun h _ => absurd h Bool.false_ne_true,
      fun h _ => absurd h Bool.false_ne_true⟩
  | true =>
    cases dbRaises with
    | true =>
      have ha : applyOne now true st it
          = ⟨(update_lua_manifest_fs st.files it.lua_path it.depot
              it.latest_manifest).1, st.rows, st.succeeded, st.failed + 1⟩ := by
        unfold applyOne
        dsimp only
        rw [hok]
        simp
      rw [ha]
      exact ⟨rfl, fun h => absurd h.symm Bool.false_ne_true,
        fun _ _ => ⟨rfl, rfl, rfl⟩,
        fun _ h => absurd h.symm Bool.false_ne_true⟩
    | false =>
      have ha : applyOne now false st it
          = ⟨(update_lua_manifest_fs st.files it.lua_path it.depot
              it.latest_manifest).1,
            (if (update_db_manifest st.rows it.filename it.depot
                it.latest_manifest).2 = 0 then
              record_in_db (update_db_manifest st.rows it.filename it.depot
                it.latest_manifest).1 it.filename it.appid it.depot
                it.latest_manifest it.dest_path it.multi now
            else (update_db_manifest st.rows it.filename it.depot
                it.latest_manifest).1),
            st.succeeded + 1, st.failed⟩ := by
        unfold applyOne
        dsimp only
        rw [hok]
        simp
      rw [ha]
      refine ⟨rfl, fun h => absurd h.symm Bool.false_ne_true,
        fun _ h => absurd h Bool.false_ne_true,
        fun _ _ => ⟨rfl, rfl, ?_, ?_⟩⟩
      · intro r hr hf hd
        dsimp only at hr
        have hmem : r ∈ (update_db_manifest st.rows it.filename it.depot
              it.latest_manifest).1 ∨
            r = (⟨it.filename, it.appid, it.depot, it.latest_manifest,
              it.dest_path, now, it.multi⟩ : Row) := by
          by_cases hcnt : (update_db_manifest st.rows it.filename it.depot
              it.latest_manifest).2 = 0
          · rw [if_pos hcnt] at hr
            unfold record_in_db at hr
            rcases List.mem_append.mp hr with h1 | h1
            · exact Or.inl h1
            · exact Or.inr (List.mem_singleton.mp h1)
          · rw [if_neg hcnt] at hr
            exact Or.inl hr
        rcases hmem with h1 | h1
        · unfold update_db_manifest at h1
          dsimp only at h1
          obtain ⟨r0, hr0, hre⟩ := List.mem_map.mp h1
          by_cases hc : r0.filename = it.filename ∧ r0.depot = it.depot
          · rw [if_pos hc] at hre
            rw [← hre]
          · rw [if_neg hc] at hre
            subst hre
            exact absurd ⟨hf, hd⟩ hc
        · rw [h1]
      · by_cases hcnt : (update_db_manifest st.rows it.filename it.depot
            it.latest_manifest).2 = 0
        · refine ⟨⟨it.filename, it.appid, it.depot, it.latest_manifest,
            it.dest_path, now, it.multi⟩, ?_, rfl, rfl⟩
          dsimp only
          rw [if_pos hcnt]
          unfold record_in_db
          exact List.mem_append.mpr (Or.inr (List.mem_singleton.mpr rfl))
        · have hpos : 0 < st.rows.countP
              (fun r => decide (r.filename = it.filename ∧
                r.depot = it.depot)) := by
            unfold update_db_manifest at hcnt
            dsimp only at hcnt
            omega
          obtain ⟨r0, hr0, hp⟩ := List.countP_pos_iff.mp hpos
          rw [decide_eq_true_eq] at hp
          refine ⟨{ r0 with manifest_id := it.latest_manifest }, ?_, hp.1, hp.2⟩
          dsimp only
          rw [if_neg hcnt]
          unfold update_db_manifest
          dsimp only
          have hmm := List.mem_map_of_mem (fun r : Row =>
            if r.filename = it.filename ∧ r.depot = it.depot then
              { r with manifest_id := it.latest_manifest } else r) hr0
          dsimp only at hmm
          rw [if_pos hp] at hmm
          exact hmm

theorem claim_C2_witness :
    ((update_lua_manifest_fs [("L", "setManifestid(7,\"1\")\n")] "L" 7 "2").2
      = true) ∧
    ((false : Bool) = false) ∧
    ((applyOne 5 false ⟨[("L", "setManifestid(7,\"1\")\n")], [], 0, 0⟩
        ⟨"g.lua", 1, 0, 7, "2", "p", "L"⟩).succeeded = 0 + 1 ∧
     (applyOne 5 false ⟨[("L", "setManifestid(7,\"1\")\n")], [], 0, 0⟩
        ⟨"g.lua", 1, 0, 7, "2", "p", "L"⟩).failed = 0 ∧
     (∀ r ∈ (applyOne 5 false ⟨[("L", "setManifestid(7,\"1\")\n")], [], 0, 0⟩
        ⟨"g.lua", 1, 0, 7, "2", "p", "L"⟩).rows,
        r.filename = "g.lua" → r.depot = 7 → r.manifest_id = "2") ∧
     (∃ r ∈ (applyOne 5 false ⟨[("L", "setManifestid(7,\"1\")\n")], [], 0, 0⟩
        ⟨"g.lua", 1, 0, 7, "2", "p", "L"⟩).rows,
        r.filename = "g.lua" ∧ r.depot = 7)) :=
  ⟨by decide, rfl,
    (claim_C2_apply_error_handling 5 false
      ⟨[("L", "setManifestid(7,\"1\")\n")], [], 0, 0⟩
      ⟨"g.lua", 1, 0, 7, "2", "p", "L"⟩).2.2.2 (by decide) rfl⟩

/-! ### Reconciliation: `run_check_worker_cli` -/

/-- A known file as seen by the check worker: `none` content models a
missing or unreadable file. -/
structure CheckFile where
  filename : String
  content : Option String
deriving DecidableEq

structure UpdateCandidate where
  filename : String
  appid : Nat
  multi : Nat
  depot : Nat
  current_manifest : String
  latest_manifest : String
deriving DecidableEq

structure CheckState where
  checked : Nat
  errors : Nat
  to_update : List UpdateCandidate
deriving DecidableEq

/-- `sorted(manifests.items())`: the dict's pairs in ascending key order
(keys are unique, so sorting the pairs is sorting by key). -/
def sortedItems (m : List (Nat × String)) : List (Nat × String) :=
  ((m.map Prod.fst).foldr insSorted []).filterMap
    (fun d => (dlookup d m).map (fun v => (d, v)))

/-- One iteration of the inner depot loop.  The resolver returns
`.error ()` when `get_latest_manifest_for_depot` raises and `.ok none`
when it yields no (falsy) data. -/
def depotStep (resolver : Nat → Except Unit (Option String))
    (filename : String) (appid multi : Nat) (st : CheckState)
    (dv : Nat × String) : CheckState :=
  let st1 : CheckState := { st with checked := st.checked + 1 }
  match resolver dv.1 with
  | .error _ => { st1 with errors := st1.errors + 1 }
  | .ok none => st1
  | .ok (some latest) =>
    if latest ≠ dv.2 then
      { st1 with to_update := st1.to_update ++
          [⟨filename, appid, multi, dv.1, dv.2, latest⟩] }
    else st1

/-- One iteration of the outer file loop: skip missing or unreadable
files and files without manifests, else walk the depots in ascending
order. -/
def checkFile (resolver : Nat → Except Unit (Option String))
    (st : CheckState) (f : CheckFile) : CheckState :=
  match f.content with
  | none => st
  | some text =>
    let parsed := parse_all_from_content text
    let appid := match parsed.appid with | some a => a | none => 0
    if parsed.manifests = [] then st
    else
      let multi := if 1 < parsed.manifests.length then 1 else 0
      (sortedItems parsed.manifests).foldl
        (depotStep resolver f.filename appid multi) st

def run_check_worker_cli (resolver : Nat → Except Unit (Option String))
    (files : List CheckFile) : CheckState :=
  files.foldl (checkFile resolver) ⟨0, 0, []⟩

/-- The depot/manifest pairs the worker iterates over for one file. -/
def fileItems (f : CheckFile) : List (Nat × String) :=
  match f.content with
  | none => []
  | some text =>
    if (parse_all_from_content text).manifests = [] then []
    else sortedItems (parse_all_from_content text).manifests

def fileAppid (f : CheckFile) : Nat :=
  match f.content with
  | none => 0
  | some text =>
    match (parse_all_from_content text).appid with
    | some a => a
    | none => 0

def fileMulti (f : CheckFile) : Nat :=
  match f.content with
  | none => 0
  | some text =>
    if 1 < (parse_all_from_content text).manifests.length then 1 else 0

def isErr : Except Unit (Option String) → Bool
  | .error _ => true
  | .ok _ => false

/-- The candidate one depot iteration contributes, if any. -/
def candOf (resolver : Nat → Except Unit (Option String))
    (filename : String) (appid multi : Nat) (dv : Nat × String) :
    Option UpdateCandidate :=
  match resolver dv.1 with
  | .ok (some v) =>
    if v ≠ dv.2 then some ⟨filename, appid, multi, dv.1, dv.2, v⟩ else none
  | _ => none

theorem foldl_depotStep (resolver : Nat → Except Unit (Option String))
    (fn : String) (ap mu : Nat) :
    ∀ (items : List (Nat × String)) (st : CheckState),
      items.foldl (depotStep resolver fn ap mu) st
        = ⟨st.checked + items.length,
           st.errors + items.countP (fun dv => isErr (resolver dv.1)),
           st.to_update ++ items.filterMap (candOf resolver fn ap mu)⟩ := by
  intro items
  induction items with
  | nil => intro st; simp
  | cons dv items ih =>
    intro st
    rw [List.foldl_cons, ih, List.length_cons, List.countP_cons,
      List.filterMap_cons]
    cases hres : resolver dv.1 with
    | error e =>
      simp [depotStep, candOf, hres, isErr, CheckState.mk.injEq]; omega
    | ok val =>
      cases val with
      | none =>
        simp [depotStep, candOf, hres, isErr, CheckState.mk.injEq]; omega
      | some v =>
        simp only [depotStep, candOf, hres, isErr]
        by_cases hv : v ≠ dv.2
        · rw [if_pos hv, if_pos hv]
          simp [CheckState.mk.injEq, List.append_assoc]; omega
        · rw [if_neg hv, if_neg hv]
          simp [CheckState.mk.injEq]; omega

theorem checkFile_eq (resolver : Nat → Except Unit (Option String))
    (st : CheckState) (f : CheckFile) :
    checkFile resolver st f
      = ⟨st.checked + (fileItems f).length,
         st.errors + (fileItems f).countP (fun dv => isErr (resolver dv.1)),
         st.to_update ++ (fileItems f).filterMap
           (candOf resolver f.filename (fileAppid f) (fileMulti f))⟩ := by
  unfold checkFile fileItems fileAppid fileMulti
  cases f.content with
  | none => simp
  | some text =>
    dsimp only
    by_cases hm : (parse_all_from_content text).manifests = []
    · rw [if_pos hm, if_pos hm]
      simp
    · rw [if_neg hm, if_neg hm]
      exact foldl_depotStep resolver f.filename _ _ _ st

theorem run_check_foldl (resolver : Nat → Except Unit (Option String)) :
    ∀ (files : List CheckFile) (st : CheckState),
      files.foldl (checkFile resolver) st
        = ⟨st.checked + (files.map (fun f => (fileItems f).length)).sum,
           st.errors + (files.map (fun f =>
             (fileItems f).countP (fun dv => isErr (resolver dv.1)))).sum,
           st.to_update ++ files.flatMap (fun f => (fileItems f).filterMap
             (candOf resolver f.filename (fileAppid f) (fileMulti f)))⟩ := by
  intro files
  induction files with
  | nil => intro st; simp
  | cons f fs ih =>
    intro st
    rw [List.foldl_cons, checkFile_eq, ih, List.map_cons, List.map_cons,
      List.sum_cons, List.sum_cons, List.flatMap_cons]
    simp only [CheckState.mk.injEq]
    refine ⟨by omega, by omega, ?_⟩
    rw [List.append_assoc]

theorem keys_filterMap_sublist (g : Nat → Option String) :
    ∀ ds : List Nat,
      ((ds.filterMap (fun d => (g d).map (fun v => (d, v)))).map
        Prod.fst).Sublist ds := by
  intro ds
  induction ds with
  | nil => simp
  | cons d ds ih =>
    rw [List.filterMap_cons]
    cases g d with
    | none => exact ih.cons d
    | some v =>
      dsimp only [Option.map_some']
      rw [List.map_cons]
      exact ih.cons₂ d

/-- C8: one reconciliation run is a sum over files and depots — counters
and candidates add up file by file and depot by depot, so no per-depot
failure aborts the rest; a raising depot adds exactly 1 to the error
counter and no candidate, a no-data depot adds nothing, and a candidate
arises exactly when the resolved value differs from the file's current
manifest; within a file the depots are visited in strictly ascending
numeric order; every emitted candidate records a successfully resolved
value that differs from the current manifest. -/
theorem claim_C8_per_depot_isolation
    (resolver : Nat → Except Unit (Option String))
    (files : List CheckFile) :
    run_check_worker_cli resolver files
      = ⟨(files.map (fun f => (fileItems f).length)).sum,
         (files.map (fun f =>
            (fileItems f).countP (fun dv => isErr (resolver dv.1)))).sum,
         files.flatMap (fun f => (fileItems f).filterMap
            (candOf resolver f.filename (fileAppid f) (fileMulti f)))⟩ ∧
    (∀ f ∈ files, ((fileItems f).map Prod.fst).Pairwise (· < ·)) ∧
    (∀ c ∈ (run_check_worker_cli resolver files).to_update,
        resolver c.depot = .ok (some c.latest_manifest) ∧
        c.latest_manifest ≠ c.current_manifest) := by
  have hrun : run_check_worker_cli resolver files
      = ⟨(files.map (fun f => (fileItems f).length)).sum,
         (files.map (fun f =>
            (fileItems f).countP (fun dv => isErr (resolver dv.1)))).sum,
         files.flatMap (fun f => (fileItems f).filterMap
            (candOf resolver f.filename (fileAppid f) (fileMulti f)))⟩ := by
    unfold run_check_worker_cli
    rw [run_check_foldl]
    simp
  refine ⟨hrun, ?_, ?_⟩
  · intro f _
    unfold fileItems
    cases f.content with
    | none => simp
    | some text =>
      dsimp only
      by_cases hm : (parse_all_from_content text).manifests = []
      · rw [if_pos hm]
        simp
      · rw [if_neg hm]
        unfold sortedItems
        exact (foldr_insSorted_pairwise _).sublist (keys_filterMap_sublist _ _)
  · intro c hc
    rw [hrun] at hc
    obtain ⟨f, _, hc⟩ := List.mem_flatMap.mp hc
    obtain ⟨dv, _, hcand⟩ := List.mem_filterMap.mp hc
    unfold candOf at hcand
    cases hres : resolver dv.1 with
    | error e => rw [hres] at hcand; cases hcand
    | ok val =>
      cases val with
      | none => rw [hres] at hcand; cases hcand
      | some v =>
        rw [hres] at hcand
        dsimp only at hcand
        by_cases hv : v ≠ dv.2
        · rw [if_pos hv] at hcand
          obtain rfl := Option.some_inj.mp hcand
          exact ⟨hres, hv⟩
        · rw [if_neg hv] at hcand
          cases hcand

theorem claim_C8_witness :
    run_check_worker_cli
      (fun d => if d = 1 then Except.error () else
        if d = 2 then Except.ok (some "99") else Except.ok (none : Option String))
      [⟨"a.lua", some
        "setManifestid(2,\"20\")\nsetManifestid(1,\"10\")\nsetManifestid(3,\"30\")\n"⟩,
       ⟨"b.lua", none⟩]
      = ⟨3, 1, [⟨"a.lua", 0, 1, 2, "20", "99"⟩]⟩ :=
  (claim_C8_per_depot_isolation
    (fun d => if d = 1 then Except.error () else
      if d = 2 then Except.ok (some "99") else Except.ok (none : Option String))
    [⟨"a.lua", some
      "setManifestid(2,\"20\")\nsetManifestid(1,\"10\")\nsetManifestid(3,\"30\")\n"⟩,
     ⟨"b.lua", none⟩]).1.trans (by decide)

end Steamer
